import Mathlib

/-!
# Verification of the typed storage codec (`src/index.js`)

This file gives a shallow embedding of the `Storage` class of the repository:
a typed serialization layer over a string-only key/value backend.  JavaScript
builtins that the code calls (`Number(...)`, number-to-string conversion,
`Date#toUTCString`, `new Date(string)`, `new RegExp(string)`, `JSON.parse`,
`JSON.stringify`, Web Storage `getItem`/`setItem`/`removeItem`) are modelled
from their ECMAScript / WHATWG specifications, since they are not part of the
repository sources; each such model carries a doc comment saying what it
models and which fragment of the builtin behaviour it covers.

The development is laid out as: character and digit utilities, the number
model, the date model, the pattern (RegExp) model, the JSON model, the
JavaScript value model, the storage codec itself, and finally the theorems
about the codec.
-/

namespace JsStorage

/-! ## Character and digit utilities -/

/-- The whitespace characters stripped by the ECMAScript `StringToNumber`
conversion (the common ones: space, tab, line feed, carriage return,
vertical tab, form feed). -/
def isWsChar (c : Char) : Bool :=
  c = ' ' || c = '\t' || c = '\n' || c = '\r' || c = '\x0b' || c = '\x0c'

/-- The decimal digit character for a digit value below ten. -/
def digitChar (d : ℕ) : Char := Char.ofNat (48 + d)

/-- The digit value of a decimal digit character. -/
def digitVal (c : Char) : ℕ := c.toNat - 48

/-- Horner evaluation of a most-significant-first digit list, starting
from an accumulator. -/
def hornerAux (a : ℕ) : List ℕ → ℕ
  | [] => a
  | d :: l => hornerAux (10 * a + d) l

/-- Numeric value of a most-significant-first list of decimal digit
characters. -/
def digitsVal (l : List Char) : ℕ := hornerAux 0 (l.map digitVal)

/-- The decimal digit characters of a natural number, most significant
first; zero is rendered as the single digit `0`. -/
def natChars (n : ℕ) : List Char :=
  if n = 0 then ['0'] else (Nat.digits 10 n).reverse.map digitChar

theorem digitVal_digitChar : ∀ d, d < 10 → digitVal (digitChar d) = d := by decide

theorem isDigit_digitChar : ∀ d, d < 10 → (digitChar d).isDigit = true := by decide

theorem isDigit_toNat_bounds {c : Char} (h : c.isDigit = true) :
    48 ≤ c.toNat ∧ c.toNat ≤ 57 := by
  simp only [Char.isDigit, decide_eq_true_eq, Bool.and_eq_true] at h
  obtain ⟨h1, h2⟩ := h
  constructor
  · exact h1
  · exact h2

theorem not_isWsChar_of_isDigit {c : Char} (h : c.isDigit = true) :
    isWsChar c = false := by
  obtain ⟨h1, _⟩ := isDigit_toNat_bounds h
  simp only [isWsChar, Bool.or_eq_false_iff, decide_eq_false_iff_not]
  refine ⟨⟨⟨⟨⟨?_, ?_⟩, ?_⟩, ?_⟩, ?_⟩, ?_⟩ <;>
    · intro hc
      subst hc
      exact absurd h1 (by decide)

theorem isDigit_ne {c x : Char} (h : c.isDigit = true) (hx : x.isDigit = false) :
    c ≠ x := by
  intro hc
  subst hc
  rw [h] at hx
  exact Bool.noConfusion hx

theorem hornerAux_append (a : ℕ) (l₁ l₂ : List ℕ) :
    hornerAux a (l₁ ++ l₂) = hornerAux (hornerAux a l₁) l₂ := by
  induction l₁ generalizing a with
  | nil => rfl
  | cons d l ih => simp [hornerAux, ih]

theorem hornerAux_eq_ofDigits (a : ℕ) (l : List ℕ) :
    hornerAux a l = a * 10 ^ l.length + Nat.ofDigits 10 l.reverse := by
  induction l generalizing a with
  | nil => simp [hornerAux]
  | cons d l ih =>
    simp only [hornerAux, ih, List.reverse_cons, Nat.ofDigits_append,
      List.length_cons, List.length_reverse, Nat.ofDigits_cons,
      Nat.ofDigits_nil]
    ring

theorem hornerAux_digits (n : ℕ) :
    hornerAux 0 ((Nat.digits 10 n).reverse) = n := by
  rw [hornerAux_eq_ofDigits]
  simp [Nat.ofDigits_digits]

theorem mem_natChars_isDigit {n : ℕ} {c : Char} (h : c ∈ natChars n) :
    c.isDigit = true := by
  unfold natChars at h
  by_cases h0 : n = 0
  · simp [h0] at h
    subst h
    decide
  · simp only [h0, if_false, List.mem_map, List.mem_reverse] at h
    obtain ⟨d, hd, hdc⟩ := h
    have : d < 10 := Nat.digits_lt_base (by norm_num) hd
    subst hdc
    exact isDigit_digitChar d this

theorem natChars_ne_nil (n : ℕ) : natChars n ≠ [] := by
  unfold natChars
  by_cases h0 : n = 0
  · simp [h0]
  · simp only [h0, if_false, ne_eq, List.map_eq_nil_iff, List.reverse_eq_nil_iff]
    exact Nat.digits_ne_nil_iff_ne_zero.mpr h0

theorem digitsVal_natChars (n : ℕ) : digitsVal (natChars n) = n := by
  unfold digitsVal natChars
  by_cases h0 : n = 0
  · subst h0
    decide
  · simp only [h0, if_false, List.map_map]
    have hmap : ((Nat.digits 10 n).reverse.map (digitVal ∘ digitChar))
        = (Nat.digits 10 n).reverse := by
      refine List.map_congr_left ?_ |>.trans (List.map_id _)
      intro d hd
      have : d < 10 := Nat.digits_lt_base (by norm_num) (List.mem_reverse.mp hd)
      exact digitVal_digitChar d this
    rw [hmap, hornerAux_digits]

theorem digitsVal_zeros_append (j : ℕ) (l : List Char) :
    digitsVal (List.replicate j '0' ++ l) = digitsVal l := by
  induction j with
  | zero => simp
  | succ k ih =>
    simp only [List.replicate_succ, List.cons_append]
    simpa [digitsVal, hornerAux] using ih

/-! ### takeWhile / dropWhile helpers -/

theorem takeWhile_all {p : Char → Bool} {l : List Char}
    (h : ∀ c ∈ l, p c = true) : l.takeWhile p = l := by
  induction l with
  | nil => rfl
  | cons c l ih =>
    have hc := h c (List.mem_cons_self c l)
    simp [List.takeWhile, hc, ih fun x hx => h x (List.mem_cons_of_mem c hx)]

theorem dropWhile_all {p : Char → Bool} {l : List Char}
    (h : ∀ c ∈ l, p c = true) : l.dropWhile p = [] := by
  induction l with
  | nil => rfl
  | cons c l ih =>
    have hc := h c (List.mem_cons_self c l)
    simp [List.dropWhile, hc, ih fun x hx => h x (List.mem_cons_of_mem c hx)]

theorem takeWhile_append_all {p : Char → Bool} {l r : List Char}
    (h : ∀ c ∈ l, p c = true) :
    (l ++ r).takeWhile p = l ++ r.takeWhile p := by
  induction l with
  | nil => rfl
  | cons c l ih =>
    have hc := h c (List.mem_cons_self c l)
    simp [List.takeWhile, hc, ih fun x hx => h x (List.mem_cons_of_mem c hx)]

theorem dropWhile_append_all {p : Char → Bool} {l r : List Char}
    (h : ∀ c ∈ l, p c = true) :
    (l ++ r).dropWhile p = r.dropWhile p := by
  induction l with
  | nil => rfl
  | cons c l ih =>
    have hc := h c (List.mem_cons_self c l)
    simp [List.dropWhile, hc, ih fun x hx => h x (List.mem_cons_of_mem c hx)]

theorem takeWhile_cons_false {p : Char → Bool} {c : Char} {l : List Char}
    (h : p c = false) : (c :: l).takeWhile p = [] := by
  simp [List.takeWhile, h]

theorem dropWhile_cons_false {p : Char → Bool} {c : Char} {l : List Char}
    (h : p c = false) : (c :: l).dropWhile p = c :: l := by
  simp [List.dropWhile, h]

theorem dropWhile_all_false {p : Char → Bool} {l : List Char}
    (h : ∀ c ∈ l, p c = false) : l.dropWhile p = l := by
  induction l with
  | nil => rfl
  | cons c l ih =>
    have hc := h c (List.mem_cons_self c l)
    simp [List.dropWhile, hc]

end JsStorage

namespace JsStorage

/-! ## The number model

JavaScript numbers, as far as this codec observes them.  The codec never does
arithmetic on numbers: it only converts a number to its decimal string (in
`set`, via the template literal) and a string back to a number (in `get`, via
`Number(source)`).  A finite value is therefore modelled exactly, as a signed
decimal `m * 10 ^ e`; `NaN` and the two infinities are separate
constructors. -/

inductive JSNum where
  | nan
  | inf
  | neginf
  | fin (m : ℤ) (e : ℤ)

/-- The rational value denoted by a finite JavaScript number `m * 10 ^ e`. -/
def finVal (m e : ℤ) : ℚ := (m : ℚ) * (10 : ℚ) ^ e

/-- JavaScript `==` on numbers (with `NaN` made reflexive, as a deep-equal
library would treat it): finite values compare by numeric value. -/
def numEq : JSNum → JSNum → Bool
  | .nan, .nan => true
  | .inf, .inf => true
  | .neginf, .neginf => true
  | .fin m e, .fin m' e' => decide (finVal m e = finVal m' e')
  | _, _ => false

/-- Digits of `n` with a decimal point `k` places from the right (`1 ≤ k`),
zero-padded on the left as needed: the plain decimal notation of
`n * 10 ^ (-k)`. -/
def decChars (n k : ℕ) : List Char :=
  if k < (natChars n).length then
    (natChars n).take ((natChars n).length - k) ++
      '.' :: (natChars n).drop ((natChars n).length - k)
  else
    '0' :: '.' :: (List.replicate (k - (natChars n).length) '0' ++ natChars n)

/-- Modelled from the ECMAScript `Number::toString` conversion (the template
literal in `set`): `NaN`, the infinities, and plain decimal notation for
finite values.  The model restricts finite numbers to the range in which the
real conversion uses plain decimal notation rather than exponential
notation. -/
def JSNum.toString : JSNum → String
  | .nan => "NaN"
  | .inf => "Infinity"
  | .neginf => "-Infinity"
  | .fin m e =>
    if 0 ≤ e then
      ⟨(if m < 0 then ['-'] else []) ++ natChars (m.natAbs * 10 ^ e.toNat)⟩
    else
      ⟨(if m < 0 then ['-'] else []) ++ decChars m.natAbs (-e).toNat⟩

/-- Strip leading and trailing whitespace, as `StringToNumber` does. -/
def trimWs (l : List Char) : List Char :=
  ((l.dropWhile isWsChar).reverse.dropWhile isWsChar).reverse

/-- Read an optional sign character; returns whether the sign was `-`,
and the remaining characters. -/
def readSign (l : List Char) : Bool × List Char :=
  if l.head? = some '-' then (true, l.tail)
  else if l.head? = some '+' then (false, l.tail)
  else (false, l)

def isHexDigitCh (c : Char) : Bool :=
  c.isDigit || ('a' ≤ c && c ≤ 'f') || ('A' ≤ c && c ≤ 'F')

def isOctCh (c : Char) : Bool := '0' ≤ c && c ≤ '7'

def isBinCh (c : Char) : Bool := c = '0' || c = '1'

def hexValCh (c : Char) : ℕ :=
  if c.isDigit then digitVal c
  else if 'a' ≤ c && c ≤ 'f' then c.toNat - 87
  else c.toNat - 55

/-- Value of a non-decimal integer literal body in base `b`. -/
def radixValue (b : ℕ) (l : List Char) : ℕ :=
  l.foldl (fun a c => b * a + hexValCh c) 0

/-- A `0x`/`0o`/`0b` integer literal body: all digits of the base, nonempty. -/
def parseRadix (b : ℕ) (ok : Char → Bool) (l : List Char) : JSNum :=
  if ¬ l.isEmpty ∧ l.all ok then .fin (radixValue b l) 0 else .nan

/-- The exponent-part tail of a decimal literal: digits only, to the end. -/
def parseExp (ip fp : List Char) (neg : Bool) (t : List Char) : Option (ℕ × ℤ) :=
  if (t.takeWhile Char.isDigit).isEmpty ∨ ¬ (t.dropWhile Char.isDigit).isEmpty then
    none
  else
    some (digitsVal (ip ++ fp),
      (if neg then -(digitsVal (t.takeWhile Char.isDigit) : ℤ)
       else (digitsVal (t.takeWhile Char.isDigit) : ℤ)) - (fp.length : ℤ))

/-- A decimal literal split into integer part, fraction part and rest:
requires a digit somewhere and nothing but an exponent part after. -/
def parseDecAfter (ip fp r2 : List Char) : Option (ℕ × ℤ) :=
  if ip.isEmpty ∧ fp.isEmpty then none
  else if r2.isEmpty then some (digitsVal (ip ++ fp), -(fp.length : ℤ))
  else if r2.head? = some 'e' ∨ r2.head? = some 'E' then
    parseExp ip fp (readSign r2.tail).1 (readSign r2.tail).2
  else none

/-- An unsigned `StrUnsignedDecimalLiteral`: `digits [. digits] [exp]`,
`.digits [exp]` or `digits. [exp]`; yields magnitude and decimal exponent. -/
def parseDecLit (l : List Char) : Option (ℕ × ℤ) :=
  if (l.dropWhile Char.isDigit).head? = some '.' then
    parseDecAfter (l.takeWhile Char.isDigit)
      ((l.dropWhile Char.isDigit).tail.takeWhile Char.isDigit)
      ((l.dropWhile Char.isDigit).tail.dropWhile Char.isDigit)
  else
    parseDecAfter (l.takeWhile Char.isDigit) [] (l.dropWhile Char.isDigit)

/-- A signed decimal literal or `Infinity`, consuming the whole input. -/
def numParseSigned (neg : Bool) (l : List Char) : JSNum :=
  if l = "Infinity".data then (if neg then .neginf else .inf)
  else
    match parseDecLit l with
    | some me => .fin (if neg then -(me.1 : ℤ) else (me.1 : ℤ)) me.2
    | none => .nan

/-- `StringToNumber` on an already-trimmed character list. -/
def numParseL (l : List Char) : JSNum :=
  if l.isEmpty then .fin 0 0
  else if l.take 2 = ['0', 'x'] ∨ l.take 2 = ['0', 'X'] then
    parseRadix 16 isHexDigitCh (l.drop 2)
  else if l.take 2 = ['0', 'o'] ∨ l.take 2 = ['0', 'O'] then
    parseRadix 8 isOctCh (l.drop 2)
  else if l.take 2 = ['0', 'b'] ∨ l.take 2 = ['0', 'B'] then
    parseRadix 2 isBinCh (l.drop 2)
  else numParseSigned (readSign l).1 (readSign l).2

/-- Modelled from the ECMAScript `Number(string)` conversion
(`StringToNumber`), used by the `__numb__` decode case: trim whitespace,
empty means zero, then a decimal literal, `Infinity`, or a `0x`/`0o`/`0b`
integer literal; anything else is `NaN`.  Values are exact here (no rounding
to binary floating point, and no overflow or underflow). -/
def numParse (s : String) : JSNum :=
  numParseL (trimWs s.data)

end JsStorage

namespace JsStorage

/-! ### Number round-trip lemmas -/

theorem isEmpty_false_of_ne_nil {l : List Char} (h : l ≠ []) : l.isEmpty = false := by
  cases l with
  | nil => exact absurd rfl h
  | cons a l => rfl

theorem data_mk (l : List Char) : (⟨l⟩ : String).data = l := rfl

theorem mem_decChars {n k : ℕ} {c : Char} (h : c ∈ decChars n k) :
    c.isDigit = true ∨ c = '.' := by
  unfold decChars at h
  by_cases hk : k < (natChars n).length
  · simp only [hk, if_true, List.mem_append, List.mem_cons] at h
    rcases h with h | h | h
    · exact Or.inl (mem_natChars_isDigit (List.take_subset _ _ h))
    · exact Or.inr h
    · exact Or.inl (mem_natChars_isDigit (List.drop_subset _ _ h))
  · simp only [hk, if_false, List.mem_cons, List.mem_append] at h
    rcases h with h | h | h | h
    · subst h; exact Or.inl (by decide)
    · exact Or.inr h
    · rw [List.eq_of_mem_replicate h]; exact Or.inl (by decide)
    · exact Or.inl (mem_natChars_isDigit h)

theorem digitsVal_cons_zero (l : List Char) : digitsVal ('0' :: l) = digitsVal l := rfl

theorem parseDecLit_natChars (n : ℕ) :
    parseDecLit (natChars n) = some (n, 0) := by
  have hall : ∀ c ∈ natChars n, c.isDigit = true := fun c hc => mem_natChars_isDigit hc
  rw [parseDecLit, takeWhile_all hall, dropWhile_all hall]
  simp [parseDecAfter, isEmpty_false_of_ne_nil (natChars_ne_nil n), digitsVal_natChars]

theorem parseDecLit_decChars (n k : ℕ) (hk : 1 ≤ k) :
    parseDecLit (decChars n k) = some (n, -(k : ℤ)) := by
  have hallnat : ∀ c ∈ natChars n, c.isDigit = true := fun c hc => mem_natChars_isDigit hc
  have hdot : ('.' : Char).isDigit = false := by decide
  by_cases hlt : k < (natChars n).length
  · have htk : ∀ c ∈ (natChars n).take ((natChars n).length - k), c.isDigit = true :=
      fun c hc => hallnat c (List.take_subset _ _ hc)
    have hdp : ∀ c ∈ (natChars n).drop ((natChars n).length - k), c.isDigit = true :=
      fun c hc => hallnat c (List.drop_subset _ _ hc)
    have hfplen : ((natChars n).drop ((natChars n).length - k)).length = k := by
      rw [List.length_drop]; omega
    have hfpne : (natChars n).drop ((natChars n).length - k) ≠ [] := by
      intro h; rw [h] at hfplen; simp at hfplen; omega
    rw [decChars, if_pos hlt, parseDecLit,
      takeWhile_append_all htk, dropWhile_append_all htk,
      takeWhile_cons_false hdot, dropWhile_cons_false hdot]
    simp only [List.head?_cons, List.tail_cons, List.append_nil, if_pos rfl]
    rw [takeWhile_all hdp, dropWhile_all hdp]
    simp only [parseDecAfter, isEmpty_false_of_ne_nil hfpne, List.isEmpty_nil,
      Bool.false_eq_true, and_false, if_false, if_true, List.take_append_drop,
      digitsVal_natChars, hfplen]
  · have hrep : ∀ c ∈ List.replicate (k - (natChars n).length) '0' ++ natChars n,
        c.isDigit = true := by
      intro c hc
      rcases List.mem_append.mp hc with h | h
      · rw [List.eq_of_mem_replicate h]; decide
      · exact hallnat c h
    have h0 : ('0' : Char).isDigit = true := by decide
    have e1 : List.takeWhile Char.isDigit (decChars n k) = ['0'] := by
      rw [decChars, if_neg hlt]
      simp [List.takeWhile_cons, h0, hdot]
    have e2 : List.dropWhile Char.isDigit (decChars n k)
        = '.' :: (List.replicate (k - (natChars n).length) '0' ++ natChars n) := by
      rw [decChars, if_neg hlt]
      simp [List.dropWhile_cons, h0, hdot]
    rw [parseDecLit, e1, e2]
    simp only [List.head?_cons, List.tail_cons, if_true]
    rw [takeWhile_all hrep, dropWhile_all hrep]
    simp only [parseDecAfter, List.isEmpty_cons, List.isEmpty_nil, Bool.false_eq_true,
      false_and, if_false, if_true, List.singleton_append, digitsVal_cons_zero,
      digitsVal_zeros_append, digitsVal_natChars, List.length_append,
      List.length_replicate]
    have : k - (natChars n).length + (natChars n).length = k := by omega
    rw [this]

theorem trimWs_eq_self {l : List Char} (h : ∀ c ∈ l, isWsChar c = false) :
    trimWs l = l := by
  unfold trimWs
  rw [dropWhile_all_false h,
    dropWhile_all_false (fun c hc => h c (List.mem_reverse.mp hc)),
    List.reverse_reverse]

theorem take2_ne_of_mem {l : List Char}
    (hmem : ∀ c ∈ l, c.isDigit = true ∨ c = '.' ∨ c = '-')
    {z : Char} (hz : z.isDigit = false) (hz1 : z ≠ '.') (hz2 : z ≠ '-') :
    ¬ l.take 2 = ['0', z] := by
  intro h
  have hzmem : z ∈ l.take 2 := by rw [h]; simp
  have hzl : z ∈ l := List.take_subset _ _ hzmem
  rcases hmem z hzl with hd | hd | hd
  · rw [hd] at hz; exact Bool.noConfusion hz
  · exact hz1 hd
  · exact hz2 hd

theorem readSign_neg (l : List Char) : readSign ('-' :: l) = (true, l) := by
  simp [readSign]

theorem readSign_id {l : List Char}
    (h : ∀ c, l.head? = some c → c ≠ '-' ∧ c ≠ '+') :
    readSign l = (false, l) := by
  unfold readSign
  cases l with
  | nil => simp
  | cons a t =>
    have ha := h a rfl
    simp [ha.1, ha.2]

theorem ne_infinity_chars {l : List Char}
    (hmem : ∀ c ∈ l, c.isDigit = true ∨ c = '.') :
    l ≠ "Infinity".data := by
  intro h
  have hI : 'I' ∈ l := by rw [h]; decide
  rcases hmem 'I' hI with hd | hd
  · exact absurd hd (by decide)
  · exact absurd hd (by decide)

theorem numParseL_print {B : ℕ} {E : ℤ} (neg : Bool) (body : List Char)
    (hne : body ≠ [])
    (hmem : ∀ c ∈ body, c.isDigit = true ∨ c = '.')
    (hlit : parseDecLit body = some (B, E)) :
    numParseL ((if neg then ['-'] else []) ++ body)
      = .fin (if neg then -(B : ℤ) else (B : ℤ)) E := by
  have hmem' : ∀ c ∈ (if neg then ['-'] else []) ++ body,
      c.isDigit = true ∨ c = '.' ∨ c = '-' := by
    intro c hc
    rcases List.mem_append.mp hc with h | h
    · cases neg with
      | true => simp at h; subst h; exact Or.inr (Or.inr rfl)
      | false => simp at h
    · rcases hmem c h with h' | h'
      · exact Or.inl h'
      · exact Or.inr (Or.inl h')
  have hlne : (if neg then ['-'] else []) ++ body ≠ [] := by
    intro h
    rcases List.append_eq_nil.mp h with ⟨_, h2⟩
    exact hne h2
  have hsign : readSign ((if neg then ['-'] else []) ++ body) = (neg, body) := by
    cases neg with
    | true => simpa using readSign_neg body
    | false =>
      show readSign ([] ++ body) = (false, body)
      rw [List.nil_append]
      refine readSign_id ?_
      intro c hc
      obtain ⟨a, t, hbody⟩ := List.exists_cons_of_ne_nil hne
      rw [hbody] at hc
      simp at hc
      subst hc
      have : a ∈ body := by rw [hbody]; exact List.mem_cons_self a t
      rcases hmem a this with h' | h'
      · exact ⟨isDigit_ne h' (by decide), isDigit_ne h' (by decide)⟩
      · subst h'; exact ⟨by decide, by decide⟩
  rw [numParseL, if_neg (by simp [isEmpty_false_of_ne_nil hlne]),
    if_neg (by
      rintro (h | h)
      · exact take2_ne_of_mem hmem' (by decide) (by decide) (by decide) h
      · exact take2_ne_of_mem hmem' (by decide) (by decide) (by decide) h),
    if_neg (by
      rintro (h | h)
      · exact take2_ne_of_mem hmem' (by decide) (by decide) (by decide) h
      · exact take2_ne_of_mem hmem' (by decide) (by decide) (by decide) h),
    if_neg (by
      rintro (h | h)
      · exact take2_ne_of_mem hmem' (by decide) (by decide) (by decide) h
      · exact take2_ne_of_mem hmem' (by decide) (by decide) (by decide) h),
    hsign]
  rw [numParseSigned, if_neg (ne_infinity_chars hmem), hlit]

end JsStorage

namespace JsStorage

theorem decChars_ne_nil (n k : ℕ) : decChars n k ≠ [] := by
  unfold decChars
  by_cases hk : k < (natChars n).length
  · simp only [hk, if_true]
    intro h
    rcases List.append_eq_nil.mp h with ⟨_, h2⟩
    exact List.noConfusion h2
  · simp [hk]

theorem finVal_shift (m e : ℤ) (he : 0 ≤ e) :
    finVal (m * 10 ^ e.toNat) 0 = finVal m e := by
  simp only [finVal, zpow_zero, mul_one]
  push_cast
  rw [← zpow_natCast (10 : ℚ) e.toNat, Int.toNat_of_nonneg he]

theorem finVal_eq_zero_iff {m e : ℤ} : finVal m e = 0 ↔ m = 0 := by
  unfold finVal
  rw [mul_eq_zero]
  have h10 : (10 : ℚ) ^ e ≠ 0 := zpow_ne_zero e (by norm_num)
  simp [h10]

/-- Parsing the printed form of a finite number recovers its numeric value. -/
theorem numParse_toString_fin (m e : ℤ) :
    ∃ m' e', numParse (JSNum.toString (JSNum.fin m e)) = JSNum.fin m' e'
      ∧ finVal m' e' = finVal m e := by
  by_cases he : 0 ≤ e
  · have hmem : ∀ c ∈ natChars (m.natAbs * 10 ^ e.toNat), c.isDigit = true ∨ c = '.' :=
      fun c hc => Or.inl (mem_natChars_isDigit hc)
    by_cases hm : m < 0
    · refine ⟨-((m.natAbs * 10 ^ e.toNat : ℕ) : ℤ), 0, ?_, ?_⟩
      · have hws : ∀ c ∈ ['-'] ++ natChars (m.natAbs * 10 ^ e.toNat),
            isWsChar c = false := by
          intro c hc
          rcases List.mem_append.mp hc with h | h
          · simp at h; subst h; decide
          · exact not_isWsChar_of_isDigit (mem_natChars_isDigit h)
        have hts : (JSNum.toString (JSNum.fin m e)).data
            = ['-'] ++ natChars (m.natAbs * 10 ^ e.toNat) := by
          simp [JSNum.toString, hm, he, data_mk]
        rw [numParse, hts, trimWs_eq_self hws]
        have hp := numParseL_print true (natChars (m.natAbs * 10 ^ e.toNat))
          (natChars_ne_nil _) hmem (parseDecLit_natChars _)
        simpa using hp
      · have h1 : (-((m.natAbs * 10 ^ e.toNat : ℕ) : ℤ)) = m * 10 ^ e.toNat := by
          have habs : (m.natAbs : ℤ) = -m := by omega
          push_cast [habs]
          ring
        rw [h1, finVal_shift m e he]
    · refine ⟨((m.natAbs * 10 ^ e.toNat : ℕ) : ℤ), 0, ?_, ?_⟩
      · have hws : ∀ c ∈ natChars (m.natAbs * 10 ^ e.toNat), isWsChar c = false :=
          fun c hc => not_isWsChar_of_isDigit (mem_natChars_isDigit hc)
        have hts : (JSNum.toString (JSNum.fin m e)).data
            = natChars (m.natAbs * 10 ^ e.toNat) := by
          simp [JSNum.toString, hm, he, data_mk]
        rw [numParse, hts, trimWs_eq_self hws]
        have hp := numParseL_print false (natChars (m.natAbs * 10 ^ e.toNat))
          (natChars_ne_nil _) hmem (parseDecLit_natChars _)
        simpa using hp
      · have h1 : (((m.natAbs * 10 ^ e.toNat : ℕ) : ℤ)) = m * 10 ^ e.toNat := by
          have habs : (m.natAbs : ℤ) = m := by omega
          push_cast [habs]
          ring
        rw [h1, finVal_shift m e he]
  · have hk : 1 ≤ (-e).toNat := by omega
    have hmemd : ∀ c ∈ decChars m.natAbs (-e).toNat, c.isDigit = true ∨ c = '.' :=
      fun c hc => mem_decChars hc
    have hwsd : ∀ c ∈ decChars m.natAbs (-e).toNat, isWsChar c = false := by
      intro c hc
      rcases mem_decChars hc with h | h
      · exact not_isWsChar_of_isDigit h
      · subst h; decide
    have hE : (-((((-e).toNat : ℕ) : ℤ))) = e := by omega
    by_cases hm : m < 0
    · refine ⟨-((m.natAbs : ℕ) : ℤ), -((((-e).toNat : ℕ) : ℤ)), ?_, ?_⟩
      · have hws : ∀ c ∈ ['-'] ++ decChars m.natAbs (-e).toNat, isWsChar c = false := by
          intro c hc
          rcases List.mem_append.mp hc with h | h
          · simp at h; subst h; decide
          · exact hwsd c h
        have hts : (JSNum.toString (JSNum.fin m e)).data
            = ['-'] ++ decChars m.natAbs (-e).toNat := by
          simp [JSNum.toString, hm, he, data_mk]
        rw [numParse, hts, trimWs_eq_self hws]
        have hp := numParseL_print true (decChars m.natAbs (-e).toNat)
          (decChars_ne_nil _ _) hmemd (parseDecLit_decChars _ _ hk)
        simpa using hp
      · have h2 : (-((m.natAbs : ℕ) : ℤ)) = m := by omega
        rw [h2, hE]
    · refine ⟨((m.natAbs : ℕ) : ℤ), -((((-e).toNat : ℕ) : ℤ)), ?_, ?_⟩
      · have hts : (JSNum.toString (JSNum.fin m e)).data
            = decChars m.natAbs (-e).toNat := by
          simp [JSNum.toString, hm, he, data_mk]
        rw [numParse, hts, trimWs_eq_self hwsd]
        have hp := numParseL_print false (decChars m.natAbs (-e).toNat)
          (decChars_ne_nil _ _) hmemd (parseDecLit_decChars _ _ hk)
        simpa using hp
      · have h2 : (((m.natAbs : ℕ) : ℤ)) = m := by omega
        rw [h2, hE]

end JsStorage

namespace JsStorage

/-! ## The date model

A JavaScript `Date` is either invalid or an instant.  The codec only observes
an instant through `toUTCString` (in `set`) and `new Date(string)` (in
`get`), so a valid date is modelled by its broken-down UTC fields, which
determine the instant uniquely.  The model restricts years to 1..9999 (the
range in which `toUTCString` prints a plain four-digit year). -/

structure DateFields where
  year : ℕ
  month : ℕ
  day : ℕ
  hour : ℕ
  minute : ℕ
  second : ℕ
  ms : ℕ
deriving DecidableEq

def isLeap (y : ℕ) : Bool := (y % 4 == 0 && y % 100 != 0) || y % 400 == 0

def daysInMonth (y m : ℕ) : ℕ :=
  if m = 2 then (if isLeap y then 29 else 28)
  else if m = 4 ∨ m = 6 ∨ m = 9 ∨ m = 11 then 30
  else 31

/-- The broken-down fields denote a real calendar instant in the model's
range. -/
def fieldsOk (f : DateFields) : Bool :=
  decide (1 ≤ f.year) && decide (f.year ≤ 9999) &&
  decide (1 ≤ f.month) && decide (f.month ≤ 12) &&
  decide (1 ≤ f.day) && decide (f.day ≤ daysInMonth f.year f.month) &&
  decide (f.hour ≤ 23) && decide (f.minute ≤ 59) &&
  decide (f.second ≤ 59) && decide (f.ms ≤ 999)

inductive JSDate where
  | invalid
  | valid (f : DateFields)

/-- JavaScript date value equality as "same instant" (with two invalid
dates treated as equal). -/
def dateEq : JSDate → JSDate → Bool
  | .invalid, .invalid => true
  | .valid f, .valid g => decide (f = g)
  | _, _ => false

/-- Days since 1970-01-01 of a civil date (the standard era-based
conversion); used only to print the day-of-week name. -/
def daysFromCivil (y m d : ℤ) : ℤ :=
  let y' := if m ≤ 2 then y - 1 else y
  let era := (if 0 ≤ y' then y' else y' - 399) / 400
  let yoe := y' - era * 400
  let doy := (153 * (if 2 < m then m - 3 else m + 9) + 2) / 5 + d - 1
  let doe := yoe * 365 + yoe / 4 - yoe / 100 + doy
  era * 146097 + doe - 719468

def weekdayNames : List String := ["Sun", "Mon", "Tue", "Wed", "Thu", "Fri", "Sat"]

def monthNames : List String :=
  ["Jan", "Feb", "Mar", "Apr", "May", "Jun",
   "Jul", "Aug", "Sep", "Oct", "Nov", "Dec"]

def dayOfWeekName (f : DateFields) : String :=
  weekdayNames.getD (((daysFromCivil f.year f.month f.day + 4) % 7).toNat) ("Sun")

def monthName (m : ℕ) : String := monthNames.getD (m - 1) ("Jan")

def pad2 (n : ℕ) : List Char := [digitChar (n / 10), digitChar (n % 10)]

def pad4 (n : ℕ) : List Char :=
  [digitChar (n / 1000), digitChar (n / 100 % 10),
   digitChar (n / 10 % 10), digitChar (n % 10)]

/-- The character list of `toUTCString`:
`Www, DD Mon YYYY HH:MM:SS GMT`.  Note the milliseconds do not appear. -/
def DateFields.utcChars (f : DateFields) : List Char :=
  (dayOfWeekName f).data ++
    ',' :: ' ' :: (pad2 f.day ++
      ' ' :: ((monthName f.month).data ++
        ' ' :: (pad4 f.year ++
          ' ' :: (pad2 f.hour ++
            ':' :: (pad2 f.minute ++
              ':' :: (pad2 f.second ++ [' ', 'G', 'M', 'T']))))))

/-- Modelled from the ECMAScript `Date.prototype.toUTCString`: the RFC-1123
style `Www, DD Mon YYYY HH:MM:SS GMT` rendering, seconds precision (the
milliseconds of the instant are discarded), or the string `Invalid Date`. -/
def JSDate.toUTCString : JSDate → String
  | .invalid => "Invalid Date"
  | .valid f => ⟨f.utcChars⟩

/-! ### Date-string parsing -/

def rdChar (c : Char) (l : List Char) : Option (List Char) :=
  match l with
  | x :: r => if x = c then some r else none
  | [] => none

def rd2 (l : List Char) : Option (ℕ × List Char) :=
  match l with
  | a :: b :: r =>
    if a.isDigit && b.isDigit then some (10 * digitVal a + digitVal b, r) else none
  | _ => none

def rd4 (l : List Char) : Option (ℕ × List Char) :=
  match l with
  | a :: b :: c :: d :: r =>
    if a.isDigit && b.isDigit && c.isDigit && d.isDigit then
      some (1000 * digitVal a + 100 * digitVal b + 10 * digitVal c + digitVal d, r)
    else none
  | _ => none

def rdSkip3 (l : List Char) : Option (List Char) :=
  match l with
  | _ :: _ :: _ :: r => some r
  | _ => none

def rdMonth (l : List Char) : Option (ℕ × List Char) :=
  match l with
  | a :: b :: c :: r =>
    match monthNames.findIdx? (fun x => x == (⟨[a, b, c]⟩ : String)) with
    | some i => some (i + 1, r)
    | none => none
  | _ => none

/-- The ` GMT` suffix, which must end the input. -/
def parseGMT (f : DateFields) (l : List Char) : Option DateFields :=
  (rdChar ' ' l).bind fun r9 =>
  (rdChar 'G' r9).bind fun rA =>
  (rdChar 'M' rA).bind fun rB =>
  (rdChar 'T' rB).bind fun rC =>
  if rC.isEmpty then some f else none

/-- The `HH:MM:SS` part, then the suffix. -/
def parseTime (d mo y : ℕ) (l : List Char) : Option DateFields :=
  (rd2 l).bind fun hr =>
  (rdChar ':' hr.2).bind fun r7 =>
  (rd2 r7).bind fun mir =>
  (rdChar ':' mir.2).bind fun r8 =>
  (rd2 r8).bind fun sr =>
  parseGMT ⟨y, mo, d, hr.1, mir.1, sr.1, 0⟩ sr.2

/-- The `Mon YYYY ` part of the date, then the time. -/
def parseMonthYear (d : ℕ) (l : List Char) : Option DateFields :=
  (rdMonth l).bind fun mr =>
  (rdChar ' ' mr.2).bind fun r5 =>
  (rd4 r5).bind fun yr =>
  (rdChar ' ' yr.2).bind fun r6 =>
  parseTime d mr.1 yr.1 r6

/-- Recognize the `Www, DD Mon YYYY HH:MM:SS GMT` shape (the day-of-week
word is skipped, as real parsers ignore it); milliseconds are zero. -/
def parseUTC (l : List Char) : Option DateFields :=
  (rdSkip3 l).bind fun r1 =>
  (rdChar ',' r1).bind fun r2 =>
  (rdChar ' ' r2).bind fun r3 =>
  (rd2 r3).bind fun dr =>
  (rdChar ' ' dr.2).bind fun r4 =>
  parseMonthYear dr.1 r4

/-- Modelled from `new Date(string)`: recognizes the UTC format that
`toUTCString` emits (with field-range validation); any other string yields
an invalid date.  Real engines also accept other formats (ISO 8601 among
them); those are outside the model. -/
def dateParse (s : String) : JSDate :=
  match parseUTC s.data with
  | some f => if fieldsOk f then .valid f else .invalid
  | none => .invalid

end JsStorage

namespace JsStorage

/-! ### Date round-trip lemmas -/

theorem rdChar_cons (c : Char) (r : List Char) : rdChar c (c :: r) = some r := by
  simp [rdChar]

theorem rd2_pad2 {n : ℕ} (hn : n < 100) (r : List Char) :
    rd2 (pad2 n ++ r) = some (n, r) := by
  have h1 : n / 10 < 10 := by omega
  have h2 : n % 10 < 10 := by omega
  have hv : 10 * (n / 10) + n % 10 = n := by omega
  simp only [pad2, List.cons_append, List.nil_append, rd2,
    isDigit_digitChar _ h1, isDigit_digitChar _ h2, Bool.and_self, if_true,
    digitVal_digitChar _ h1, digitVal_digitChar _ h2, hv]

theorem rd4_pad4 {n : ℕ} (hn : n < 10000) (r : List Char) :
    rd4 (pad4 n ++ r) = some (n, r) := by
  have h1 : n / 1000 < 10 := by omega
  have h2 : n / 100 % 10 < 10 := by omega
  have h3 : n / 10 % 10 < 10 := by omega
  have h4 : n % 10 < 10 := by omega
  have hv : 1000 * (n / 1000) + 100 * (n / 100 % 10) + 10 * (n / 10 % 10) + n % 10
      = n := by omega
  simp only [pad4, List.cons_append, List.nil_append, rd4,
    isDigit_digitChar _ h1, isDigit_digitChar _ h2, isDigit_digitChar _ h3,
    isDigit_digitChar _ h4, Bool.and_self, if_true,
    digitVal_digitChar _ h1, digitVal_digitChar _ h2, digitVal_digitChar _ h3,
    digitVal_digitChar _ h4, hv]

theorem rdSkip3_cons3 (a b c : Char) (r : List Char) :
    rdSkip3 (a :: b :: c :: r) = some r := rfl

theorem dayOfWeekName_shape (f : DateFields) :
    ∃ a b c, (dayOfWeekName f).data = [a, b, c] := by
  unfold dayOfWeekName
  have h7 : ((daysFromCivil f.year f.month f.day + 4) % 7).toNat < 7 := by
    have hn := Int.emod_nonneg (daysFromCivil f.year f.month f.day + 4)
      (by norm_num : (7 : ℤ) ≠ 0)
    have hl := Int.emod_lt_of_pos (daysFromCivil f.year f.month f.day + 4)
      (by norm_num : (0 : ℤ) < 7)
    omega
  set i := ((daysFromCivil f.year f.month f.day + 4) % 7).toNat with hi
  clear_value i
  interval_cases i <;> exact ⟨_, _, _, rfl⟩

theorem rdMonth_monthName {m : ℕ} (h1 : 1 ≤ m) (h2 : m ≤ 12) (r : List Char) :
    rdMonth ((monthName m).data ++ r) = some (m, r) := by
  interval_cases m <;> rfl

theorem parseGMT_tail (f : DateFields) :
    parseGMT f ([' ', 'G', 'M', 'T']) = some f := rfl

theorem parseTime_chars (d mo y h mi s : ℕ)
    (hh : h < 100) (hmi : mi < 100) (hs : s < 100) :
    parseTime d mo y
        (pad2 h ++ ':' :: (pad2 mi ++ ':' :: (pad2 s ++ [' ', 'G', 'M', 'T'])))
      = some ⟨y, mo, d, h, mi, s, 0⟩ := by
  rw [parseTime, rd2_pad2 hh]
  simp only [Option.some_bind]
  rw [rdChar_cons]
  simp only [Option.some_bind]
  rw [rd2_pad2 hmi]
  simp only [Option.some_bind]
  rw [rdChar_cons]
  simp only [Option.some_bind]
  rw [rd2_pad2 hs]
  simp only [Option.some_bind]
  exact parseGMT_tail _

theorem parseMonthYear_chars (d mo y h mi s : ℕ)
    (hmo1 : 1 ≤ mo) (hmo2 : mo ≤ 12) (hy : y < 10000)
    (hh : h < 100) (hmi : mi < 100) (hs : s < 100) :
    parseMonthYear d
        ((monthName mo).data ++
          ' ' :: (pad4 y ++
            ' ' :: (pad2 h ++
              ':' :: (pad2 mi ++ ':' :: (pad2 s ++ [' ', 'G', 'M', 'T'])))))
      = some ⟨y, mo, d, h, mi, s, 0⟩ := by
  rw [parseMonthYear, rdMonth_monthName hmo1 hmo2]
  simp only [Option.some_bind]
  rw [rdChar_cons]
  simp only [Option.some_bind]
  rw [rd4_pad4 hy]
  simp only [Option.some_bind]
  rw [rdChar_cons]
  simp only [Option.some_bind]
  exact parseTime_chars d mo y h mi s hh hmi hs

theorem daysInMonth_le (y m : ℕ) : daysInMonth y m ≤ 31 := by
  unfold daysInMonth
  split_ifs <;> omega

theorem parseUTC_utcChars (f : DateFields) (hok : fieldsOk f = true) :
    parseUTC f.utcChars
      = some ⟨f.year, f.month, f.day, f.hour, f.minute, f.second, 0⟩ := by
  simp only [fieldsOk, Bool.and_eq_true, decide_eq_true_eq] at hok
  have hday : f.day < 100 :=
    lt_of_le_of_lt (le_trans hok.1.1.1.1.2 (daysInMonth_le f.year f.month))
      (by norm_num)
  obtain ⟨a, b, c, hwd⟩ := dayOfWeekName_shape f
  rw [parseUTC, DateFields.utcChars, hwd]
  simp only [List.cons_append, List.nil_append]
  rw [rdSkip3_cons3]
  simp only [Option.some_bind]
  rw [rdChar_cons]
  simp only [Option.some_bind]
  rw [rdChar_cons]
  simp only [Option.some_bind]
  rw [rd2_pad2 hday]
  simp only [Option.some_bind]
  rw [rdChar_cons]
  simp only [Option.some_bind]
  exact parseMonthYear_chars f.day f.month f.year f.hour f.minute f.second
    (by omega) (by omega) (by omega) (by omega) (by omega) (by omega)

theorem fieldsOk_msZero {f : DateFields} (hok : fieldsOk f = true) :
    fieldsOk ⟨f.year, f.month, f.day, f.hour, f.minute, f.second, 0⟩ = true := by
  simp only [fieldsOk, Bool.and_eq_true, decide_eq_true_eq] at hok ⊢
  omega

/-- Parsing the printed UTC form of a valid date recovers its fields with
the milliseconds zeroed. -/
theorem dateParse_utc_valid (f : DateFields) (hok : fieldsOk f = true) :
    dateParse (JSDate.toUTCString (.valid f))
      = .valid ⟨f.year, f.month, f.day, f.hour, f.minute, f.second, 0⟩ := by
  simp [dateParse, JSDate.toUTCString, data_mk, parseUTC_utcChars f hok,
    fieldsOk_msZero hok]

end JsStorage

namespace JsStorage

/-! ## The pattern (RegExp) model

A JavaScript RegExp value, observed by the codec only through its `source`
text (written by `set`) and through construction from source text (in
`get`).  `new RegExp(string)` throws a SyntaxError on an invalid pattern;
pattern validity is modelled by a decidable core fragment of the ECMAScript
pattern grammar: bracket balance of groups and character classes, and no
dangling backslash. -/

structure JSRegExp where
  src : String
  flags : String
deriving DecidableEq

/-- Bracket-balance walk over pattern text: `d` open groups, `inCls` inside a
character class. -/
def patternChk : List Char → ℕ → Bool → Bool
  | [], d, inCls => d == 0 && !inCls
  | '\\' :: _ :: r, d, i => patternChk r d i
  | ['\\'], _, _ => false
  | '[' :: r, d, false => patternChk r d true
  | ']' :: r, d, true => patternChk r d false
  | '(' :: r, d, false => patternChk r (d + 1) false
  | ')' :: r, d, false => d != 0 && patternChk r (d - 1) false
  | _ :: r, d, i => patternChk r d i

def patternOk (s : String) : Bool := patternChk s.data 0 false

/-- Modelled from `new RegExp(string)` with no flags argument: `none` models
the SyntaxError thrown on an invalid pattern, with validity per
`patternChk` — a necessary condition of real pattern validity, not a
sufficient one: every pattern it rejects (unbalanced groups or classes,
dangling backslash) is rejected by the builtin too, but it accepts some
patterns the full ECMAScript grammar rejects (such as a bare quantifier
`*`), so `none` soundly models a SyntaxError while `some` certifies real
acceptance only for sources that come from actual regex values.  An empty
pattern gets the source `(?:)`; the flags of the result are empty.
Source-text normalization beyond the empty pattern (such as the escaping of
`/`) is not modelled. -/
def compileRegExp (s : String) : Option JSRegExp :=
  if patternOk s then some ⟨if s = "" then ("(?:)" : String) else s, ""⟩ else none

end JsStorage

namespace JsStorage

/-! ## The JSON model

The JSON values this codec can store and load, with `JSON.stringify` and
`JSON.parse` modelled from ECMA-404 / the ECMAScript builtins.  Numbers are
the finite decimal values of the number model.  One deviation: a `\uXXXX`
escape denoting half of a surrogate pair is outside the model (the model's
characters are Unicode scalar values). -/

inductive JSON where
  | null
  | bool (b : Bool)
  | num (m e : ℤ)
  | str (s : String)
  | arr (elems : List JSON)
  | obj (fields : List (String × JSON))

def isJsonWs (c : Char) : Bool := c = ' ' || c = '\t' || c = '\n' || c = '\r'

def skipWs (l : List Char) : List Char := l.dropWhile isJsonWs

def hexChar (d : ℕ) : Char := if d < 10 then digitChar d else Char.ofNat (87 + d)

/-- `JSON.stringify`'s escaping of one string character. -/
def escChar (c : Char) : List Char :=
  if c = '"' then ['\\', '"']
  else if c = '\\' then ['\\', '\\']
  else if c = '\n' then ['\\', 'n']
  else if c = '\r' then ['\\', 'r']
  else if c = '\t' then ['\\', 't']
  else if c = '\x08' then ['\\', 'b']
  else if c = '\x0c' then ['\\', 'f']
  else if c.toNat < 32 then
    ['\\', 'u', '0', '0', hexChar (c.toNat / 16), hexChar (c.toNat % 16)]
  else [c]

/-- A double-quoted JSON string literal for `s`. -/
def escStr (s : String) : List Char :=
  '"' :: (s.data.map escChar).flatten ++ ['"']

mutual

/-- `JSON.stringify` (compact form, as the builtin emits with no spacing
argument). -/
def jsonStr : JSON → List Char
  | .null => ['n', 'u', 'l', 'l']
  | .bool false => ['f', 'a', 'l', 's', 'e']
  | .bool true => ['t', 'r', 'u', 'e']
  | .num m e => (JSNum.toString (.fin m e)).data
  | .str s => escStr s
  | .arr [] => ['[', ']']
  | .arr (x :: xs) => '[' :: (jsonStr x ++ (jsonStrElems xs ++ [']']))
  | .obj [] => ['\x7b', '\x7d']
  | .obj (kv :: kvs) =>
    '\x7b' :: (escStr kv.1 ++ ':' :: jsonStr kv.2 ++ (jsonStrFields kvs ++ ['\x7d']))

def jsonStrElems : List JSON → List Char
  | [] => []
  | x :: xs => ',' :: jsonStr x ++ jsonStrElems xs

def jsonStrFields : List (String × JSON) → List Char
  | [] => []
  | kv :: kvs => ',' :: escStr kv.1 ++ ':' :: jsonStr kv.2 ++ jsonStrFields kvs

end

def jsonStringify (j : JSON) : String := ⟨jsonStr j⟩

mutual

/-- JavaScript deep equality of JSON values (numbers by numeric value,
everything else structurally). -/
def jsonEq : JSON → JSON → Bool
  | .null, .null => true
  | .bool a, .bool b => a == b
  | .num m e, .num m' e' => decide (finVal m e = finVal m' e')
  | .str s, .str t => s == t
  | .arr xs, .arr ys => jsonEqList xs ys
  | .obj fs, .obj gs => jsonEqFields fs gs
  | _, _ => false

def jsonEqList : List JSON → List JSON → Bool
  | [], [] => true
  | x :: xs, y :: ys => jsonEq x y && jsonEqList xs ys
  | _, _ => false

def jsonEqFields : List (String × JSON) → List (String × JSON) → Bool
  | [], [] => true
  | f :: fs, g :: gs => f.1 == g.1 && jsonEq f.2 g.2 && jsonEqFields fs gs
  | _, _ => false

end

end JsStorage

namespace JsStorage

/-! ### JSON parsing -/

/-- The single-character JSON string escapes. -/
def escMap (e : Char) : Option Char :=
  if e = '"' then some '"'
  else if e = '\\' then some '\\'
  else if e = '/' then some '/'
  else if e = 'n' then some '\n'
  else if e = 'r' then some '\r'
  else if e = 't' then some '\t'
  else if e = 'b' then some '\x08'
  else if e = 'f' then some '\x0c'
  else none

/-- A `\u` escape body: four hex digits; yields the character and the
number of characters consumed (the `u` plus the four digits). -/
def escU : List Char → Option (Char × ℕ)
  | h1 :: h2 :: h3 :: h4 :: _ =>
    if isHexDigitCh h1 && isHexDigitCh h2 && isHexDigitCh h3 && isHexDigitCh h4 then
      some (Char.ofNat (4096 * hexValCh h1 + 256 * hexValCh h2 +
        16 * hexValCh h3 + hexValCh h4), 5)
    else none
  | _ => none

/-- One escape after the backslash: the decoded character and how many
characters it consumed. -/
def escStep (r : List Char) : Option (Char × ℕ) :=
  match r with
  | [] => none
  | e :: r2 => if e = 'u' then escU r2 else (escMap e).map fun d => (d, 1)

/-- A JSON string body after the opening quote: characters up to the closing
quote, with escapes decoded; raw control characters are refused. -/
def pStr : List Char → Option (List Char × List Char)
  | [] => none
  | c :: r =>
    if c = '"' then some ([], r)
    else if c = '\\' then
      match escStep r with
      | some dn =>
        match pStr (r.drop dn.2) with
        | some p => some (dn.1 :: p.1, p.2)
        | none => none
      | none => none
    else if c.toNat < 32 then none
    else
      match pStr r with
      | some p => some (c :: p.1, p.2)
      | none => none
termination_by l => l.length
decreasing_by
  all_goals simp_wf
  all_goals omega

/-- JSON forbids leading zeros: the integer part is `0` or starts with a
nonzero digit. -/
def jsonIntOk (ip : List Char) : Bool :=
  if ip.head? = some '0' then ip.length == 1 else true

/-- The optional fraction part: `.` must be followed by at least one digit. -/
def jsonFrac (l : List Char) : Option (List Char × List Char) :=
  if l.head? = some '.' then
    if (l.tail.takeWhile Char.isDigit).isEmpty then none
    else some (l.tail.takeWhile Char.isDigit, l.tail.dropWhile Char.isDigit)
  else some ([], l)

/-- The optional exponent part: `e`/`E`, optional sign, at least one digit. -/
def jsonExp (l : List Char) : Option (ℤ × List Char) :=
  if l.head? = some 'e' ∨ l.head? = some 'E' then
    if ((readSign l.tail).2.takeWhile Char.isDigit).isEmpty then none
    else
      some ((if (readSign l.tail).1
             then -(digitsVal ((readSign l.tail).2.takeWhile Char.isDigit) : ℤ)
             else (digitsVal ((readSign l.tail).2.takeWhile Char.isDigit) : ℤ)),
        (readSign l.tail).2.dropWhile Char.isDigit)
  else some (0, l)

def mkSigned (neg : Bool) (n : ℕ) : ℤ := if neg then -(n : ℤ) else (n : ℤ)

/-- An unsigned JSON number body. -/
def jsonNumCore (neg : Bool) (l : List Char) : Option ((ℤ × ℤ) × List Char) :=
  if (l.takeWhile Char.isDigit).isEmpty then none
  else if jsonIntOk (l.takeWhile Char.isDigit) then
    (jsonFrac (l.dropWhile Char.isDigit)).bind fun fr =>
    (jsonExp fr.2).bind fun er =>
    some ((mkSigned neg (digitsVal (l.takeWhile Char.isDigit ++ fr.1)),
      er.1 - (fr.1.length : ℤ)), er.2)
  else none

/-- A JSON number: optional `-`, then the unsigned body. -/
def jsonNumP (l : List Char) : Option ((ℤ × ℤ) × List Char) :=
  if l.head? = some '-' then jsonNumCore true l.tail else jsonNumCore false l

mutual

/-- A JSON value, by recursive descent with fuel; leading whitespace is
skipped. -/
def pV : ℕ → List Char → Option (JSON × List Char)
  | 0, _ => none
  | f + 1, l =>
    if (skipWs l).take 4 = ['n', 'u', 'l', 'l'] then some (.null, (skipWs l).drop 4)
    else if (skipWs l).take 4 = ['t', 'r', 'u', 'e'] then
      some (.bool true, (skipWs l).drop 4)
    else if (skipWs l).take 5 = ['f', 'a', 'l', 's', 'e'] then
      some (.bool false, (skipWs l).drop 5)
    else if (skipWs l).head? = some '"' then
      (pStr (skipWs l).tail).map fun p => (.str ⟨p.1⟩, p.2)
    else if (skipWs l).head? = some '[' then
      if (skipWs (skipWs l).tail).head? = some ']' then
        some (.arr [], (skipWs (skipWs l).tail).tail)
      else (pAItems f (skipWs (skipWs l).tail)).map fun ar => (.arr ar.1, ar.2)
    else if (skipWs l).head? = some '\x7b' then
      if (skipWs (skipWs l).tail).head? = some '\x7d' then
        some (.obj [], (skipWs (skipWs l).tail).tail)
      else (pOItems f (skipWs (skipWs l).tail)).map fun orr => (.obj orr.1, orr.2)
    else (jsonNumP (skipWs l)).map fun p => (.num p.1.1 p.1.2, p.2)

/-- One or more comma-separated array elements, then `]`.  A comma must be
followed by another element (`JSON.parse` refuses a trailing comma). -/
def pAItems : ℕ → List Char → Option (List JSON × List Char)
  | 0, _ => none
  | f + 1, l =>
    (pV f l).bind fun vr =>
    if (skipWs vr.2).head? = some ',' then
      (pAItems f (skipWs (skipWs vr.2).tail)).map fun ar => (vr.1 :: ar.1, ar.2)
    else if (skipWs vr.2).head? = some ']' then some ([vr.1], (skipWs vr.2).tail)
    else none

/-- One or more `"key": value` members, then the closing brace; a comma must
be followed by another member. -/
def pOItems : ℕ → List Char → Option (List (String × JSON) × List Char)
  | 0, _ => none
  | f + 1, l =>
    if l.head? = some '"' then
      (pStr l.tail).bind fun kr =>
      if (skipWs kr.2).head? = some ':' then
        (pV f (skipWs kr.2).tail).bind fun vr =>
        if (skipWs vr.2).head? = some ',' then
          (pOItems f (skipWs (skipWs vr.2).tail)).map fun orr =>
            ((⟨kr.1⟩, vr.1) :: orr.1, orr.2)
        else if (skipWs vr.2).head? = some '\x7d' then
          some ([(⟨kr.1⟩, vr.1)], (skipWs vr.2).tail)
        else none
      else none
    else none

end

/-- Modelled from `JSON.parse`: one JSON value, with only whitespace after
it; `none` models the thrown SyntaxError.  The fuel bounds the recursion
depth; twice the input length plus two exceeds the depth any input can
reach, so the fuel never cuts a parse short. -/
def jsonParse (s : String) : Option JSON :=
  match pV (2 * s.data.length + 2) s.data with
  | some vr => if (skipWs vr.2).isEmpty then some vr.1 else none
  | none => none

end JsStorage

namespace JsStorage

/-! ### JSON string escape round trip -/

theorem hexValCh_hexChar : ∀ d, d < 16 → hexValCh (hexChar d) = d := by decide

theorem isHexDigitCh_hexChar : ∀ d, d < 16 → isHexDigitCh (hexChar d) = true := by
  decide

theorem pStr_escChar (c : Char) (t cs rest : List Char)
    (ht : pStr t = some (cs, rest)) :
    pStr (escChar c ++ t) = some (c :: cs, rest) := by
  by_cases h1 : c = '"'
  · subst h1; simp [escChar, pStr, escStep, escMap, ht]
  · by_cases h2 : c = '\\'
    · subst h2; simp [escChar, pStr, escStep, escMap, ht]
    · by_cases h3 : c = '\n'
      · subst h3; simp [escChar, pStr, escStep, escMap, ht]
      · by_cases h4 : c = '\r'
        · subst h4; simp [escChar, pStr, escStep, escMap, ht]
        · by_cases h5 : c = '\t'
          · subst h5; simp [escChar, pStr, escStep, escMap, ht]
          · by_cases h6 : c = '\x08'
            · subst h6; simp [escChar, pStr, escStep, escMap, ht]
            · by_cases h7 : c = '\x0c'
              · subst h7; simp [escChar, pStr, escStep, escMap, ht]
              · by_cases h8 : c.toNat < 32
                · have hd1 : c.toNat / 16 < 16 := by omega
                  have hd2 : c.toNat % 16 < 16 := by omega
                  have hstep : escStep
                      ('u' :: '0' :: '0' :: hexChar (c.toNat / 16)
                        :: hexChar (c.toNat % 16) :: t)
                      = some (c, 5) := by
                    rw [escStep]
                    simp only [if_pos rfl, escU,
                      isHexDigitCh_hexChar _ hd1, isHexDigitCh_hexChar _ hd2,
                      (by decide : isHexDigitCh '0' = true), Bool.and_self, if_true,
                      (by decide : hexValCh '0' = 0),
                      hexValCh_hexChar _ hd1, hexValCh_hexChar _ hd2]
                    have harith : 4096 * 0 + 256 * 0 + 16 * (c.toNat / 16)
                        + c.toNat % 16 = c.toNat := by omega
                    rw [harith, Char.ofNat_toNat]
                  rw [escChar, if_neg h1, if_neg h2, if_neg h3, if_neg h4,
                    if_neg h5, if_neg h6, if_neg h7, if_pos h8]
                  simp only [List.cons_append, List.nil_append]
                  rw [pStr]
                  simp only [if_neg (by decide : ¬ ('\\' : Char) = '"'), if_pos rfl,
                    hstep, List.drop_succ_cons, List.drop_zero, ht, if_true]
                · rw [escChar, if_neg h1, if_neg h2, if_neg h3, if_neg h4,
                    if_neg h5, if_neg h6, if_neg h7, if_neg h8]
                  simp only [List.cons_append, List.nil_append]
                  rw [pStr]
                  simp only [if_neg h1, if_neg h2, if_neg h8, ht]

theorem pStr_escBody (cs rest : List Char) :
    pStr ((cs.map escChar).flatten ++ '"' :: rest) = some (cs, rest) := by
  induction cs with
  | nil => simp [pStr]
  | cons c cs ih =>
    simp only [List.map_cons, List.flatten_cons, List.append_assoc]
    exact pStr_escChar c _ cs rest ih

theorem string_mk_data (s : String) : (⟨s.data⟩ : String) = s := rfl

/-- `pStr` run on the full escaped literal body of a string. -/
theorem pStr_escStr (s : String) (rest : List Char) :
    pStr ((escStr s).tail ++ rest) = some (s.data, rest) := by
  have : (escStr s).tail ++ rest = (s.data.map escChar).flatten ++ '"' :: rest := by
    simp [escStr, List.append_assoc]
  rw [this, pStr_escBody]

end JsStorage

namespace JsStorage

/-! ### JSON number round trip -/

theorem takeWhile_digits_append {b rest : List Char}
    (hb : ∀ c ∈ b, c.isDigit = true)
    (hrest : ∀ c, rest.head? = some c → c.isDigit = false) :
    (b ++ rest).takeWhile Char.isDigit = b
      ∧ (b ++ rest).dropWhile Char.isDigit = rest := by
  constructor
  · rw [takeWhile_append_all hb]
    cases rest with
    | nil => simp
    | cons c r => rw [takeWhile_cons_false (hrest c rfl)]; simp
  · rw [dropWhile_append_all hb]
    cases rest with
    | nil => simp
    | cons c r => exact dropWhile_cons_false (hrest c rfl)

theorem head?_take {l : List Char} {n : ℕ} (hn : 1 ≤ n) :
    (l.take n).head? = l.head? := by
  cases l with
  | nil => simp
  | cons c t =>
    cases n with
    | zero => omega
    | succ k => simp [List.take_succ_cons]

theorem natChars_head?_ne_zero {n : ℕ} (hn : n ≠ 0) :
    (natChars n).head? ≠ some '0' := by
  unfold natChars
  rw [if_neg hn]
  have hnil : Nat.digits 10 n ≠ [] := Nat.digits_ne_nil_iff_ne_zero.mpr hn
  rw [List.head?_map, List.head?_reverse,
    List.getLast?_eq_getLast_of_ne_nil hnil]
  have hne0 := Nat.getLast_digit_ne_zero 10 hn
  have hlt : (Nat.digits 10 n).getLast hnil < 10 :=
    Nat.digits_lt_base (by norm_num) (List.getLast_mem hnil)
  have hd : ∀ d, d < 10 → d ≠ 0 → digitChar d ≠ '0' := by decide
  intro hcontr
  have hdc : digitChar ((Nat.digits 10 n).getLast hnil) = '0' := by
    simpa using hcontr
  exact hd _ hlt hne0 hdc

theorem jsonIntOk_natChars (n : ℕ) : jsonIntOk (natChars n) = true := by
  by_cases h0 : n = 0
  · subst h0; decide
  · rw [jsonIntOk, if_neg (natChars_head?_ne_zero h0)]

theorem jsonFrac_skip {l : List Char} (h : l.head? ≠ some '.') :
    jsonFrac l = some ([], l) := by
  rw [jsonFrac, if_neg h]

theorem jsonExp_skip {l : List Char}
    (h : l.head? ≠ some 'e' ∧ l.head? ≠ some 'E') :
    jsonExp l = some (0, l) := by
  rw [jsonExp, if_neg (by rintro (hc | hc) <;> [exact h.1 hc; exact h.2 hc])]

/-- `rest` cannot extend a printed number: its head is not a digit and not
`.`, `e`, `E`. -/
def NumStop (rest : List Char) : Prop :=
  ∀ c, rest.head? = some c → c.isDigit = false ∧ c ≠ '.' ∧ c ≠ 'e' ∧ c ≠ 'E'

theorem numStop_head_digit {rest : List Char} (h : NumStop rest) :
    ∀ c, rest.head? = some c → c.isDigit = false := fun c hc => (h c hc).1

theorem numStop_not_dot {rest : List Char} (h : NumStop rest) :
    rest.head? ≠ some '.' := by
  intro hc
  exact absurd rfl (h '.' hc).2.1

theorem numStop_not_exp {rest : List Char} (h : NumStop rest) :
    rest.head? ≠ some 'e' ∧ rest.head? ≠ some 'E' := by
  constructor
  · intro hc; exact absurd rfl (h 'e' hc).2.2.1
  · intro hc; exact absurd rfl (h 'E' hc).2.2.2

theorem jsonNumCore_natChars (neg : Bool) (B : ℕ) (rest : List Char)
    (hstop : NumStop rest) :
    jsonNumCore neg (natChars B ++ rest) = some ((mkSigned neg B, 0), rest) := by
  have hall : ∀ c ∈ natChars B, c.isDigit = true := fun c hc => mem_natChars_isDigit hc
  obtain ⟨htk, hdp⟩ := takeWhile_digits_append hall (numStop_head_digit hstop)
  rw [jsonNumCore, htk, hdp,
    if_neg (by simp [isEmpty_false_of_ne_nil (natChars_ne_nil B)]),
    if_pos (jsonIntOk_natChars B), jsonFrac_skip (numStop_not_dot hstop)]
  simp only [Option.some_bind]
  rw [jsonExp_skip (numStop_not_exp hstop)]
  simp only [Option.some_bind, List.append_nil, digitsVal_natChars,
    List.length_nil, Nat.cast_zero, zero_sub, neg_zero]

theorem jsonNumCore_decChars (neg : Bool) (n k : ℕ) (hk : 1 ≤ k) (rest : List Char)
    (hstop : NumStop rest) :
    jsonNumCore neg (decChars n k ++ rest)
      = some ((mkSigned neg n, -(k : ℤ)), rest) := by
  have hallnat : ∀ c ∈ natChars n, c.isDigit = true := fun c hc => mem_natChars_isDigit hc
  have hdot : ('.' : Char).isDigit = false := by decide
  by_cases hlt : k < (natChars n).length
  · have hn0 : n ≠ 0 := by
      intro h0
      rw [h0] at hlt
      simp [natChars] at hlt
      omega
    have htk : ∀ c ∈ (natChars n).take ((natChars n).length - k), c.isDigit = true :=
      fun c hc => hallnat c (List.take_subset _ _ hc)
    have hdpmem : ∀ c ∈ (natChars n).drop ((natChars n).length - k), c.isDigit = true :=
      fun c hc => hallnat c (List.drop_subset _ _ hc)
    obtain ⟨hftk, hfdp⟩ := takeWhile_digits_append hdpmem (numStop_head_digit hstop)
    have hfplen : ((natChars n).drop ((natChars n).length - k)).length = k := by
      rw [List.length_drop]; omega
    have hfpne : ((natChars n).drop ((natChars n).length - k)).isEmpty = false := by
      refine isEmpty_false_of_ne_nil ?_
      intro h
      rw [h] at hfplen
      simp at hfplen
      omega
    have hiplen : ((natChars n).take ((natChars n).length - k)).length
        = (natChars n).length - k := by
      rw [List.length_take]; omega
    have hipne : ((natChars n).take ((natChars n).length - k)).isEmpty = false := by
      refine isEmpty_false_of_ne_nil ?_
      intro h
      rw [h] at hiplen
      simp at hiplen
      omega
    have hshape : decChars n k ++ rest
        = (natChars n).take ((natChars n).length - k)
          ++ ('.' :: ((natChars n).drop ((natChars n).length - k) ++ rest)) := by
      rw [decChars, if_pos hlt]
      simp [List.append_assoc]
    rw [hshape, jsonNumCore,
      takeWhile_append_all htk, takeWhile_cons_false hdot,
      dropWhile_append_all htk, dropWhile_cons_false hdot, List.append_nil]
    rw [if_neg (by simp [hipne])]
    rw [if_pos (by
      rw [jsonIntOk, head?_take (by omega)]
      rw [if_neg (natChars_head?_ne_zero hn0)])]
    rw [jsonFrac]
    simp only [List.head?_cons, if_pos rfl, List.tail_cons, hftk, hfdp, if_true]
    have hcond : ¬((((natChars n).drop ((natChars n).length - k)).isEmpty) = true) := by
      simp [hfpne]
    rw [if_neg hcond]
    simp only [Option.some_bind, jsonExp_skip (numStop_not_exp hstop),
      List.take_append_drop, digitsVal_natChars, hfplen, zero_sub]
  · have hrep : ∀ c ∈ List.replicate (k - (natChars n).length) '0' ++ natChars n,
        c.isDigit = true := by
      intro c hc
      rcases List.mem_append.mp hc with h | h
      · rw [List.eq_of_mem_replicate h]; decide
      · exact hallnat c h
    obtain ⟨hftk, hfdp⟩ := takeWhile_digits_append hrep (numStop_head_digit hstop)
    have hfrne : (List.replicate (k - (natChars n).length) '0' ++ natChars n).isEmpty
        = false := by
      refine isEmpty_false_of_ne_nil ?_
      intro h
      rcases List.append_eq_nil.mp h with ⟨_, h2⟩
      exact natChars_ne_nil n h2
    have hshape : decChars n k ++ rest
        = '0' :: ('.' :: ((List.replicate (k - (natChars n).length) '0'
            ++ natChars n) ++ rest)) := by
      rw [decChars, if_neg hlt]
      simp [List.append_assoc]
    have h0d : ('0' : Char).isDigit = true := by decide
    rw [hshape, jsonNumCore, List.takeWhile_cons, List.dropWhile_cons]
    simp only [h0d, if_true, takeWhile_cons_false hdot, dropWhile_cons_false hdot]
    rw [if_neg (by decide), if_pos (by decide), jsonFrac]
    simp only [List.head?_cons, if_pos rfl, List.tail_cons, hftk, hfdp, if_true]
    rw [if_neg (by simp [hfrne])]
    simp only [Option.some_bind, jsonExp_skip (numStop_not_exp hstop),
      List.singleton_append, digitsVal_cons_zero, digitsVal_zeros_append,
      digitsVal_natChars, List.length_append, List.length_replicate, zero_sub]
    have hlen : k - (natChars n).length + (natChars n).length = k := by omega
    rw [hlen]

end JsStorage

namespace JsStorage

theorem mkSigned_true (n : ℕ) : mkSigned true n = -(n : ℤ) := rfl

theorem mkSigned_false (n : ℕ) : mkSigned false n = (n : ℤ) := rfl

theorem finVal_neg_natAbs_pow {m e : ℤ} (hm : m < 0) (he : 0 ≤ e) :
    finVal (-((m.natAbs * 10 ^ e.toNat : ℕ) : ℤ)) 0 = finVal m e := by
  have h1 : (-((m.natAbs * 10 ^ e.toNat : ℕ) : ℤ)) = m * 10 ^ e.toNat := by
    have habs : (m.natAbs : ℤ) = -m := by omega
    push_cast [habs]
    ring
  rw [h1, finVal_shift m e he]

theorem finVal_pos_natAbs_pow {m e : ℤ} (hm : ¬ m < 0) (he : 0 ≤ e) :
    finVal (((m.natAbs * 10 ^ e.toNat : ℕ) : ℤ)) 0 = finVal m e := by
  have h1 : (((m.natAbs * 10 ^ e.toNat : ℕ) : ℤ)) = m * 10 ^ e.toNat := by
    have habs : (m.natAbs : ℤ) = m := by omega
    push_cast [habs]
    ring
  rw [h1, finVal_shift m e he]

theorem finVal_neg_natAbs {m e : ℤ} (hm : m < 0) (he : ¬ 0 ≤ e) :
    finVal (-((m.natAbs : ℕ) : ℤ)) (-((((-e).toNat : ℕ) : ℤ))) = finVal m e := by
  have h2 : (-((m.natAbs : ℕ) : ℤ)) = m := by omega
  have hE : (-((((-e).toNat : ℕ) : ℤ))) = e := by omega
  rw [h2, hE]

theorem finVal_pos_natAbs {m e : ℤ} (hm : ¬ m < 0) (he : ¬ 0 ≤ e) :
    finVal (((m.natAbs : ℕ) : ℤ)) (-((((-e).toNat : ℕ) : ℤ))) = finVal m e := by
  have h2 : (((m.natAbs : ℕ) : ℤ)) = m := by omega
  have hE : (-((((-e).toNat : ℕ) : ℤ))) = e := by omega
  rw [h2, hE]

theorem decChars_shape (n k : ℕ) :
    ∃ c t, decChars n k = c :: t ∧ c.isDigit = true := by
  unfold decChars
  by_cases hlt : k < (natChars n).length
  · rw [if_pos hlt]
    obtain ⟨c, t, hct⟩ := List.exists_cons_of_ne_nil (natChars_ne_nil n)
    have hcm : c ∈ natChars n := by
      rw [hct]; exact List.mem_cons_self c t
    have hcd : c.isDigit = true := mem_natChars_isDigit hcm
    have hlen : (natChars n).length - k = ((natChars n).length - k - 1) + 1 := by
      omega
    rw [hlen, hct, List.take_succ_cons, List.cons_append]
    exact ⟨c, _, rfl, hcd⟩
  · rw [if_neg hlt]
    exact ⟨'0', _, rfl, by decide⟩

/-- Parsing a printed finite number as a JSON number recovers its value and
consumes exactly the printed characters. -/
theorem jsonNumP_print (m e : ℤ) (rest : List Char) (hstop : NumStop rest) :
    ∃ m' e', jsonNumP ((JSNum.toString (JSNum.fin m e)).data ++ rest)
      = some ((m', e'), rest) ∧ finVal m' e' = finVal m e := by
  by_cases he : 0 ≤ e
  · by_cases hm : m < 0
    · refine ⟨mkSigned true (m.natAbs * 10 ^ e.toNat), 0, ?_, ?_⟩
      · have hts : (JSNum.toString (JSNum.fin m e)).data
            = '-' :: natChars (m.natAbs * 10 ^ e.toNat) := by
          simp [JSNum.toString, hm, he, data_mk]
        rw [hts, List.cons_append, jsonNumP]
        simp only [List.head?_cons, if_pos rfl, List.tail_cons]
        exact jsonNumCore_natChars true _ rest hstop
      · rw [mkSigned_true]
        exact finVal_neg_natAbs_pow hm he
    · refine ⟨mkSigned false (m.natAbs * 10 ^ e.toNat), 0, ?_, ?_⟩
      · have hts : (JSNum.toString (JSNum.fin m e)).data
            = natChars (m.natAbs * 10 ^ e.toNat) := by
          simp [JSNum.toString, hm, he, data_mk]
        rw [hts, jsonNumP]
        obtain ⟨c, t, hct⟩ := List.exists_cons_of_ne_nil
          (natChars_ne_nil (m.natAbs * 10 ^ e.toNat))
        have hcm : c ∈ natChars (m.natAbs * 10 ^ e.toNat) := by
          rw [hct]; exact List.mem_cons_self c t
        have hcd : c.isDigit = true := mem_natChars_isDigit hcm
        rw [if_neg (by
          rw [hct]
          simp only [List.cons_append, List.head?_cons, ne_eq, Option.some.injEq]
          exact isDigit_ne hcd (by decide))]
        exact jsonNumCore_natChars false _ rest hstop
      · rw [mkSigned_false]
        exact finVal_pos_natAbs_pow hm he
  · have hk : 1 ≤ (-e).toNat := by omega
    by_cases hm : m < 0
    · refine ⟨mkSigned true m.natAbs, -((((-e).toNat : ℕ) : ℤ)), ?_, ?_⟩
      · have hts : (JSNum.toString (JSNum.fin m e)).data
            = '-' :: decChars m.natAbs (-e).toNat := by
          simp [JSNum.toString, hm, he, data_mk]
        rw [hts, List.cons_append, jsonNumP]
        simp only [List.head?_cons, if_pos rfl, List.tail_cons]
        exact jsonNumCore_decChars true _ _ hk rest hstop
      · rw [mkSigned_true]
        exact finVal_neg_natAbs hm he
    · refine ⟨mkSigned false m.natAbs, -((((-e).toNat : ℕ) : ℤ)), ?_, ?_⟩
      · have hts : (JSNum.toString (JSNum.fin m e)).data
            = decChars m.natAbs (-e).toNat := by
          simp [JSNum.toString, hm, he, data_mk]
        obtain ⟨c, t, hct, hcd⟩ := decChars_shape m.natAbs (-e).toNat
        rw [hts, jsonNumP]
        rw [if_neg (by
          rw [hct]
          simp only [List.cons_append, List.head?_cons, ne_eq, Option.some.injEq]
          exact isDigit_ne hcd (by decide))]
        exact jsonNumCore_decChars false _ _ hk rest hstop
      · rw [mkSigned_false]
        exact finVal_pos_natAbs hm he

end JsStorage

namespace JsStorage

/-! ### Shape facts about printed JSON -/

/-- The characters a printed JSON value can start with. -/
def jsonStartCh (c : Char) : Bool :=
  c.isDigit || c = '-' || c = 'n' || c = 't' || c = 'f' || c = '"'
    || c = '[' || c = '\x7b'

theorem not_isJsonWs_of_isDigit {c : Char} (h : c.isDigit = true) :
    isJsonWs c = false := by
  obtain ⟨h1, _⟩ := isDigit_toNat_bounds h
  simp only [isJsonWs, Bool.or_eq_false_iff, decide_eq_false_iff_not]
  refine ⟨⟨⟨?_, ?_⟩, ?_⟩, ?_⟩ <;>
    · intro hc
      subst hc
      exact absurd h1 (by decide)

theorem jsonStartCh_not_ws {c : Char} (h : jsonStartCh c = true) :
    isJsonWs c = false := by
  simp only [jsonStartCh, Bool.or_eq_true, decide_eq_true_eq] at h
  rcases h with (((((((hd | h1) | h2) | h3) | h4) | h5) | h6) | h7)
  · exact not_isJsonWs_of_isDigit hd
  · subst h1; decide
  · subst h2; decide
  · subst h3; decide
  · subst h4; decide
  · subst h5; decide
  · subst h6; decide
  · subst h7; decide

theorem jsonStartCh_ne {c : Char} (h : jsonStartCh c = true) :
    c ≠ ']' ∧ c ≠ '\x7d' := by
  constructor <;>
    · intro hc
      subst hc
      exact absurd h (by decide)

theorem natChars_shape (n : ℕ) :
    ∃ c t, natChars n = c :: t ∧ c.isDigit = true := by
  obtain ⟨c, t, hct⟩ := List.exists_cons_of_ne_nil (natChars_ne_nil n)
  have hcm : c ∈ natChars n := by rw [hct]; exact List.mem_cons_self c t
  exact ⟨c, t, hct, mem_natChars_isDigit hcm⟩

theorem toString_fin_shape (m e : ℤ) :
    ∃ c t, (JSNum.toString (JSNum.fin m e)).data = c :: t
      ∧ (c.isDigit = true ∨ c = '-') := by
  by_cases hm : m < 0
  · by_cases he : 0 ≤ e
    · have hts : (JSNum.toString (JSNum.fin m e)).data
          = '-' :: natChars (m.natAbs * 10 ^ e.toNat) := by
        simp [JSNum.toString, hm, he, data_mk]
      exact ⟨'-', _, hts, Or.inr rfl⟩
    · have hts : (JSNum.toString (JSNum.fin m e)).data
          = '-' :: decChars m.natAbs (-e).toNat := by
        simp [JSNum.toString, hm, he, data_mk]
      exact ⟨'-', _, hts, Or.inr rfl⟩
  · by_cases he : 0 ≤ e
    · obtain ⟨c, t, hct, hcd⟩ := natChars_shape (m.natAbs * 10 ^ e.toNat)
      have hts : (JSNum.toString (JSNum.fin m e)).data = c :: t := by
        simp [JSNum.toString, hm, he, data_mk, hct]
      exact ⟨c, t, hts, Or.inl hcd⟩
    · obtain ⟨c, t, hct, hcd⟩ := decChars_shape m.natAbs (-e).toNat
      have hts : (JSNum.toString (JSNum.fin m e)).data = c :: t := by
        simp [JSNum.toString, hm, he, data_mk, hct]
      exact ⟨c, t, hts, Or.inl hcd⟩

theorem jsonStr_shape (j : JSON) :
    ∃ c t, jsonStr j = c :: t ∧ jsonStartCh c = true := by
  cases j with
  | null => exact ⟨'n', _, rfl, by decide⟩
  | bool b => cases b with
    | true => exact ⟨'t', _, rfl, by decide⟩
    | false => exact ⟨'f', _, rfl, by decide⟩
  | num m e =>
    obtain ⟨c, t, hct, hcs⟩ := toString_fin_shape m e
    refine ⟨c, t, by rw [jsonStr, hct], ?_⟩
    rcases hcs with hd | hd
    · simp [jsonStartCh, hd]
    · subst hd; decide
  | str s =>
    refine ⟨'"', (s.data.map escChar).flatten ++ ['"'], ?_, by decide⟩
    rw [jsonStr, escStr, List.cons_append]
  | arr xs => cases xs with
    | nil => exact ⟨'[', _, rfl, by decide⟩
    | cons x xs => exact ⟨'[', _, rfl, by decide⟩
  | obj fs => cases fs with
    | nil => exact ⟨'\x7b', _, rfl, by decide⟩
    | cons kv kvs => exact ⟨'\x7b', _, rfl, by decide⟩

theorem take_ne_of_head {l : List Char} {c a : Char} {t : List Char} {n : ℕ}
    (hl : l.head? = some c) (hne : c ≠ a) : l.take n ≠ a :: t := by
  cases l with
  | nil => simp at hl
  | cons x r =>
    simp only [List.head?_cons, Option.some.injEq] at hl
    subst hl
    cases n with
    | zero => simp
    | succ k =>
      simp only [List.take_succ_cons, ne_eq, List.cons.injEq, not_and]
      intro hx
      exact absurd hx hne

end JsStorage

namespace JsStorage

theorem numStart_ne {c : Char} (h : c.isDigit = true ∨ c = '-') :
    c ≠ 'n' ∧ c ≠ 't' ∧ c ≠ 'f' ∧ c ≠ '"' ∧ c ≠ '[' ∧ c ≠ '\x7b' := by
  rcases h with hd | hd
  · exact ⟨isDigit_ne hd (by decide), isDigit_ne hd (by decide),
      isDigit_ne hd (by decide), isDigit_ne hd (by decide),
      isDigit_ne hd (by decide), isDigit_ne hd (by decide)⟩
  · subst hd
    exact ⟨by decide, by decide, by decide, by decide, by decide, by decide⟩

theorem skipWs_cons {c : Char} {t : List Char} (h : isJsonWs c = false) :
    skipWs (c :: t) = c :: t :=
  dropWhile_cons_false h

/-- The character after one printed element: a separator or a closer. -/
def SepOk (rest : List Char) : Prop :=
  ∀ c, rest.head? = some c → c = ',' ∨ c = ']' ∨ c = '\x7d'

theorem sepOk_numStop {rest : List Char} (h : SepOk rest) : NumStop rest := by
  intro c hc
  rcases h c hc with h' | h' | h' <;>
    (subst h'; exact ⟨by decide, by decide, by decide, by decide⟩)

theorem sepOk_elems (xs : List JSON) (rest : List Char) :
    SepOk (jsonStrElems xs ++ (']' :: rest)) := by
  cases xs with
  | nil =>
    intro c hc
    simp only [jsonStrElems, List.nil_append, List.head?_cons,
      Option.some.injEq] at hc
    exact Or.inr (Or.inl hc.symm)
  | cons y ys =>
    intro c hc
    simp only [jsonStrElems, List.cons_append, List.head?_cons,
      Option.some.injEq] at hc
    exact Or.inl hc.symm

theorem sepOk_fields (kvs : List (String × JSON)) (rest : List Char) :
    SepOk (jsonStrFields kvs ++ ('\x7d' :: rest)) := by
  cases kvs with
  | nil =>
    intro c hc
    simp only [jsonStrFields, List.nil_append, List.head?_cons,
      Option.some.injEq] at hc
    exact Or.inr (Or.inr hc.symm)
  | cons kv kvs =>
    intro c hc
    simp only [jsonStrFields, List.cons_append, List.head?_cons,
      Option.some.injEq] at hc
    exact Or.inl hc.symm

mutual

/-- Fuel weight: an upper bound on the parser fuel a printed value needs. -/
def jweight : JSON → ℕ
  | .null => 1
  | .bool _ => 1
  | .num _ _ => 1
  | .str _ => 1
  | .arr xs => 1 + jweightList xs
  | .obj fs => 1 + jweightFields fs

def jweightList : List JSON → ℕ
  | [] => 1
  | x :: xs => 1 + jweight x + jweightList xs

def jweightFields : List (String × JSON) → ℕ
  | [] => 1
  | kv :: kvs => 1 + jweight kv.2 + jweightFields kvs

end

theorem jweight_pos (j : JSON) : 1 ≤ jweight j := by
  cases j <;> simp [jweight]

theorem jweightList_pos (xs : List JSON) : 1 ≤ jweightList xs := by
  cases xs <;> simp [jweightList] <;> omega

theorem jweightFields_pos (kvs : List (String × JSON)) : 1 ≤ jweightFields kvs := by
  cases kvs <;> simp [jweightFields] <;> omega

end JsStorage

namespace JsStorage

theorem head?_cons_self (c : Char) (l : List Char) : (c :: l).head? = some c := rfl

theorem head?_cons_ne {c a : Char} (h : c ≠ a) (l : List Char) :
    ¬ ((c :: l).head? = some a) := by
  simp [h]

/-- Reading what `jsonStr` wrote: the parser consumes exactly the printed
characters and returns a deep-equal value, for every fuel at least the
value's weight (values), and similarly for element and member lists. -/
theorem parse_print : ∀ f : ℕ,
    (∀ j rest, jweight j < f → SepOk rest →
      ∃ j', pV f (jsonStr j ++ rest) = some (j', rest) ∧ jsonEq j' j = true)
  ∧ (∀ x xs rest, jweightList (x :: xs) ≤ f →
      ∃ ys, pAItems f (jsonStr x ++ (jsonStrElems xs ++ (']' :: rest)))
        = some (ys, rest) ∧ jsonEqList ys (x :: xs) = true)
  ∧ (∀ (kv : String × JSON) kvs rest, jweightFields (kv :: kvs) ≤ f →
      ∃ gs, pOItems f (escStr kv.1 ++ (':' :: (jsonStr kv.2
            ++ (jsonStrFields kvs ++ ('\x7d' :: rest)))))
        = some (gs, rest) ∧ jsonEqFields gs (kv :: kvs) = true) := by
  intro f
  induction f using Nat.strong_induction_on with
  | _ f ih =>
  refine ⟨?_, ?_, ?_⟩
  · intro j rest hw hsep
    cases f with
    | zero => exact absurd hw (by have := jweight_pos j; omega)
    | succ g =>
      cases j with
      | null =>
        refine ⟨.null, ?_, by simp [jsonEq]⟩
        simp only [jsonStr, List.cons_append, List.nil_append]
        rw [pV, skipWs_cons (by decide)]
        simp
      | bool b =>
        cases b with
        | true =>
          refine ⟨.bool true, ?_, by simp [jsonEq]⟩
          simp only [jsonStr, List.cons_append, List.nil_append]
          rw [pV, skipWs_cons (by decide)]
          simp
        | false =>
          refine ⟨.bool false, ?_, by simp [jsonEq]⟩
          simp only [jsonStr, List.cons_append, List.nil_append]
          rw [pV, skipWs_cons (by decide)]
          simp
      | num m e =>
        obtain ⟨c, t, hct, hcs⟩ := toString_fin_shape m e
        obtain ⟨hn1, hn2, hn3, hn4, hn5, hn6⟩ := numStart_ne hcs
        have hcws : isJsonWs c = false := by
          rcases hcs with hd | hd
          · exact not_isJsonWs_of_isDigit hd
          · subst hd; decide
        have hdata : jsonStr (.num m e) ++ rest = c :: (t ++ rest) := by
          rw [jsonStr, hct, List.cons_append]
        have hhead : (jsonStr (.num m e) ++ rest).head? = some c := by
          rw [hdata, List.head?_cons]
        obtain ⟨m', e', hnp, hval⟩ := jsonNumP_print m e rest (sepOk_numStop hsep)
        refine ⟨.num m' e', ?_, by simp [jsonEq, hval]⟩
        rw [pV]
        rw [show skipWs (jsonStr (JSON.num m e) ++ rest)
            = jsonStr (JSON.num m e) ++ rest from by
          rw [hdata]; exact skipWs_cons hcws]
        rw [if_neg (take_ne_of_head hhead hn1),
            if_neg (take_ne_of_head hhead hn2),
            if_neg (take_ne_of_head hhead hn3),
            if_neg (by rw [hhead]; simp [hn4]),
            if_neg (by rw [hhead]; simp [hn5]),
            if_neg (by rw [hhead]; simp [hn6])]
        rw [jsonStr, hnp]
        simp
      | str s =>
        have hdata : jsonStr (.str s) ++ rest
            = '"' :: ((s.data.map escChar).flatten ++ ('"' :: rest)) := by
          rw [jsonStr, escStr]
          simp [List.cons_append, List.append_assoc]
        refine ⟨.str s, ?_, by simp [jsonEq]⟩
        rw [pV, hdata, skipWs_cons (by decide)]
        have hhead : (('"' : Char)
            :: ((s.data.map escChar).flatten ++ ('"' :: rest))).head? = some '"' := rfl
        rw [if_neg (take_ne_of_head hhead (by decide)),
            if_neg (take_ne_of_head hhead (by decide)),
            if_neg (take_ne_of_head hhead (by decide)),
            if_pos hhead]
        simp only [List.tail_cons]
        rw [pStr_escBody]
        simp [string_mk_data]
      | arr xs =>
        cases xs with
        | nil =>
          refine ⟨.arr [], ?_, by simp [jsonEq, jsonEqList]⟩
          simp only [jsonStr, List.cons_append, List.nil_append]
          rw [pV, skipWs_cons (by decide)]
          have hhead : (('[' : Char) :: (']' :: rest)).head? = some '[' := rfl
          rw [if_neg (take_ne_of_head hhead (by decide)),
              if_neg (take_ne_of_head hhead (by decide)),
              if_neg (take_ne_of_head hhead (by decide)),
              if_neg (by rw [hhead]; simp),
              if_pos hhead]
          simp only [List.tail_cons]
          rw [skipWs_cons (by decide), if_pos (head?_cons_self ']' rest)]
          simp
        | cons x xs =>
          have hwx : 1 + jweightList (x :: xs) < g + 1 := by
            have h1 : jweight (.arr (x :: xs)) = 1 + jweightList (x :: xs) := by
              simp [jweight]
            omega
          obtain ⟨c, t, hct, hcs⟩ := jsonStr_shape x
          have hdata : jsonStr (.arr (x :: xs)) ++ rest
              = '[' :: (jsonStr x ++ (jsonStrElems xs ++ (']' :: rest))) := by
            rw [jsonStr]
            simp [List.cons_append, List.append_assoc]
          obtain ⟨ys, hpa, heq⟩ := (ih g (by omega)).2.1 x xs rest (by omega)
          refine ⟨.arr ys, ?_, by simp [jsonEq, heq]⟩
          rw [pV, hdata, skipWs_cons (by decide)]
          have hhead : (('[' : Char)
              :: (jsonStr x ++ (jsonStrElems xs ++ (']' :: rest)))).head?
              = some '[' := rfl
          rw [if_neg (take_ne_of_head hhead (by decide)),
              if_neg (take_ne_of_head hhead (by decide)),
              if_neg (take_ne_of_head hhead (by decide)),
              if_neg (by rw [hhead]; simp),
              if_pos hhead]
          simp only [List.tail_cons]
          have hskip2 : skipWs (jsonStr x ++ (jsonStrElems xs ++ (']' :: rest)))
              = jsonStr x ++ (jsonStrElems xs ++ (']' :: rest)) := by
            rw [hct, List.cons_append]
            exact skipWs_cons (jsonStartCh_not_ws hcs)
          rw [hskip2]
          rw [if_neg (by
            rw [hct, List.cons_append, List.head?_cons]
            simp [(jsonStartCh_ne hcs).1])]
          rw [hpa]
          simp
      | obj fs =>
        cases fs with
        | nil =>
          refine ⟨.obj [], ?_, by simp [jsonEq, jsonEqFields]⟩
          simp only [jsonStr, List.cons_append, List.nil_append]
          rw [pV, skipWs_cons (by decide)]
          have hhead : (('\x7b' : Char) :: ('\x7d' :: rest)).head? = some '\x7b' := rfl
          rw [if_neg (take_ne_of_head hhead (by decide)),
              if_neg (take_ne_of_head hhead (by decide)),
              if_neg (take_ne_of_head hhead (by decide)),
              if_neg (by rw [hhead]; simp),
              if_neg (by rw [hhead]; simp),
              if_pos hhead]
          simp only [List.tail_cons]
          rw [skipWs_cons (by decide), if_pos (head?_cons_self '\x7d' rest)]
          simp
        | cons kv kvs =>
          have hwx : 1 + jweightFields (kv :: kvs) < g + 1 := by
            have h1 : jweight (.obj (kv :: kvs)) = 1 + jweightFields (kv :: kvs) := by
              simp [jweight]
            omega
          have hdata : jsonStr (.obj (kv :: kvs)) ++ rest
              = '\x7b' :: (escStr kv.1 ++ (':' :: (jsonStr kv.2
                  ++ (jsonStrFields kvs ++ ('\x7d' :: rest))))) := by
            rw [jsonStr]
            simp [List.cons_append, List.append_assoc]
          obtain ⟨gs, hpo, heq⟩ := (ih g (by omega)).2.2 kv kvs rest (by omega)
          refine ⟨.obj gs, ?_, by simp [jsonEq, heq]⟩
          rw [pV, hdata, skipWs_cons (by decide)]
          have hhead : (('\x7b' : Char) :: (escStr kv.1 ++ (':' :: (jsonStr kv.2
              ++ (jsonStrFields kvs ++ ('\x7d' :: rest)))))).head?
              = some '\x7b' := rfl
          rw [if_neg (take_ne_of_head hhead (by decide)),
              if_neg (take_ne_of_head hhead (by decide)),
              if_neg (take_ne_of_head hhead (by decide)),
              if_neg (by rw [hhead]; simp),
              if_neg (by rw [hhead]; simp),
              if_pos hhead]
          simp only [List.tail_cons]
          have hskip2 : skipWs (escStr kv.1 ++ (':' :: (jsonStr kv.2
              ++ (jsonStrFields kvs ++ ('\x7d' :: rest)))))
              = escStr kv.1 ++ (':' :: (jsonStr kv.2
                  ++ (jsonStrFields kvs ++ ('\x7d' :: rest)))) := by
            rw [escStr, List.cons_append]
            exact skipWs_cons (by decide)
          rw [hskip2]
          rw [if_neg (by
            rw [escStr, List.cons_append, List.cons_append, List.head?_cons]
            simp)]
          rw [hpo]
          simp
  · intro x xs rest hwl
    cases f with
    | zero =>
      exact absurd hwl (by
        have h1 := jweight_pos x
        have h2 := jweightList_pos xs
        have h3 : jweightList (x :: xs) = 1 + jweight x + jweightList xs := by
          simp [jweightList]
        omega)
    | succ g =>
      have h3 : jweightList (x :: xs) = 1 + jweight x + jweightList xs := by
        simp [jweightList]
      have h1 := jweight_pos x
      have h2 := jweightList_pos xs
      cases xs with
      | nil =>
        obtain ⟨x', hpv, hex⟩ := (ih g (by omega)).1 x (']' :: rest)
          (by omega)
          (by intro c hc; simp only [List.head?_cons, Option.some.injEq] at hc
              exact Or.inr (Or.inl hc.symm))
        refine ⟨[x'], ?_, by simp [jsonEqList, hex]⟩
        rw [pAItems]
        rw [show jsonStr x ++ (jsonStrElems [] ++ (']' :: rest))
            = jsonStr x ++ (']' :: rest) from by simp [jsonStrElems]]
        rw [hpv]
        simp only [Option.some_bind]
        rw [skipWs_cons (by decide)]
        rw [if_neg (head?_cons_ne (by decide) rest), if_pos (head?_cons_self ']' rest)]
        simp
      | cons y ys =>
        have h4 : jweightList (y :: ys) = 1 + jweight y + jweightList ys := by
          simp [jweightList]
        have h5 := jweight_pos y
        have h6 := jweightList_pos ys
        obtain ⟨x', hpv, hex⟩ := (ih g (by omega)).1 x
          (jsonStrElems (y :: ys) ++ (']' :: rest)) (by omega)
          (sepOk_elems _ _)
        obtain ⟨ys', hpa, heys⟩ := (ih g (by omega)).2.1 y ys rest (by omega)
        refine ⟨x' :: ys', ?_, by simp [jsonEqList, hex, heys]⟩
        rw [pAItems, hpv]
        simp only [Option.some_bind]
        have hsh : jsonStrElems (y :: ys) ++ (']' :: rest)
            = ',' :: (jsonStr y ++ (jsonStrElems ys ++ (']' :: rest))) := by
          simp [jsonStrElems, List.cons_append, List.append_assoc]
        rw [hsh, skipWs_cons (by decide),
          if_pos (head?_cons_self ',' (jsonStr y ++ (jsonStrElems ys ++ (']' :: rest))))]
        simp only [List.tail_cons]
        obtain ⟨c, t, hct, hcs⟩ := jsonStr_shape y
        have hskip : skipWs (jsonStr y ++ (jsonStrElems ys ++ (']' :: rest)))
            = jsonStr y ++ (jsonStrElems ys ++ (']' :: rest)) := by
          rw [hct, List.cons_append]
          exact skipWs_cons (jsonStartCh_not_ws hcs)
        rw [hskip, hpa]
        simp
  · intro kv kvs rest hwf
    cases f with
    | zero =>
      exact absurd hwf (by
        have h1 := jweight_pos kv.2
        have h2 := jweightFields_pos kvs
        have h3 : jweightFields (kv :: kvs) = 1 + jweight kv.2 + jweightFields kvs := by
          simp [jweightFields]
        omega)
    | succ g =>
      have h3 : jweightFields (kv :: kvs) = 1 + jweight kv.2 + jweightFields kvs := by
        simp [jweightFields]
      have h1 := jweight_pos kv.2
      have h2 := jweightFields_pos kvs
      have hdata : escStr kv.1 ++ (':' :: (jsonStr kv.2
          ++ (jsonStrFields kvs ++ ('\x7d' :: rest))))
          = '"' :: ((kv.1.data.map escChar).flatten
              ++ ('"' :: (':' :: (jsonStr kv.2
                ++ (jsonStrFields kvs ++ ('\x7d' :: rest)))))) := by
        rw [escStr]
        simp [List.cons_append, List.append_assoc]
      obtain ⟨v', hpv, hev⟩ := (ih g (by omega)).1 kv.2
        (jsonStrFields kvs ++ ('\x7d' :: rest)) (by omega) (sepOk_fields _ _)
      rw [pOItems, hdata,
        if_pos (head?_cons_self '"' ((kv.1.data.map escChar).flatten
          ++ ('"' :: (':' :: (jsonStr kv.2
            ++ (jsonStrFields kvs ++ ('\x7d' :: rest)))))))]
      simp only [List.tail_cons]
      rw [pStr_escBody]
      simp only [Option.some_bind]
      rw [skipWs_cons (by decide),
        if_pos (head?_cons_self ':' (jsonStr kv.2
          ++ (jsonStrFields kvs ++ ('\x7d' :: rest))))]
      simp only [List.tail_cons]
      rw [hpv]
      simp only [Option.some_bind]
      cases kvs with
      | nil =>
        refine ⟨[(kv.1, v')], ?_, by simp [jsonEqFields, hev]⟩
        rw [show jsonStrFields ([] : List (String × JSON)) ++ ('\x7d' :: rest)
            = '\x7d' :: rest from by simp [jsonStrFields]]
        rw [skipWs_cons (by decide)]
        rw [if_neg (head?_cons_ne (by decide) rest),
          if_pos (head?_cons_self '\x7d' rest)]
        simp [string_mk_data]
      | cons kv2 kvs2 =>
        have h4 : jweightFields (kv2 :: kvs2)
            = 1 + jweight kv2.2 + jweightFields kvs2 := by
          simp [jweightFields]
        have h5 := jweight_pos kv2.2
        have h6 := jweightFields_pos kvs2
        obtain ⟨gs2, hpo, heq2⟩ := (ih g (by omega)).2.2 kv2 kvs2 rest (by omega)
        refine ⟨(kv.1, v') :: gs2, ?_, by simp [jsonEqFields, hev, heq2]⟩
        have hsh : jsonStrFields (kv2 :: kvs2) ++ ('\x7d' :: rest)
            = ',' :: (escStr kv2.1 ++ (':' :: (jsonStr kv2.2
                ++ (jsonStrFields kvs2 ++ ('\x7d' :: rest))))) := by
          simp [jsonStrFields, List.cons_append, List.append_assoc]
        rw [hsh, skipWs_cons (by decide),
          if_pos (head?_cons_self ',' (escStr kv2.1 ++ (':' :: (jsonStr kv2.2
            ++ (jsonStrFields kvs2 ++ ('\x7d' :: rest))))))]
        simp only [List.tail_cons]
        have hskip : skipWs (escStr kv2.1 ++ (':' :: (jsonStr kv2.2
            ++ (jsonStrFields kvs2 ++ ('\x7d' :: rest)))))
            = escStr kv2.1 ++ (':' :: (jsonStr kv2.2
                ++ (jsonStrFields kvs2 ++ ('\x7d' :: rest)))) := by
          rw [escStr, List.cons_append]
          exact skipWs_cons (by decide)
        rw [hskip, hpo]
        simp [string_mk_data]

end JsStorage

namespace JsStorage

/-- The fuel weight of a value is within twice its printed length. -/
theorem weight_le (n : ℕ) :
    (∀ j, jweight j ≤ n → jweight j ≤ 2 * (jsonStr j).length)
  ∧ (∀ xs, jweightList xs ≤ n → jweightList xs ≤ 2 * (jsonStrElems xs).length + 1)
  ∧ (∀ kvs, jweightFields kvs ≤ n →
      jweightFields kvs ≤ 2 * (jsonStrFields kvs).length + 1) := by
  induction n with
  | zero =>
    refine ⟨?_, ?_, ?_⟩
    · intro j h; exact absurd h (by have := jweight_pos j; omega)
    · intro xs h; exact absurd h (by have := jweightList_pos xs; omega)
    · intro kvs h; exact absurd h (by have := jweightFields_pos kvs; omega)
  | succ n ih =>
    refine ⟨?_, ?_, ?_⟩
    · intro j hj
      cases j with
      | null => simp [jweight, jsonStr]
      | bool b => cases b <;> simp [jweight, jsonStr]
      | num m e =>
        obtain ⟨c, t, hct, _⟩ := toString_fin_shape m e
        have : (jsonStr (.num m e)).length = t.length + 1 := by
          rw [jsonStr, hct]
          simp
        simp [jweight, this]
        omega
      | str s =>
        have : (jsonStr (.str s)).length
            = ((s.data.map escChar).flatten ++ ['"']).length + 1 := by
          rw [jsonStr, escStr]
          simp
        simp [jweight, this]
        omega
      | arr xs =>
        cases xs with
        | nil => simp [jweight, jweightList, jsonStr]
        | cons x xs =>
          have hw : jweight (.arr (x :: xs))
              = 2 + jweight x + jweightList xs := by
            simp [jweight, jweightList]
            omega
          have hx : jweight x ≤ n := by
            have h1 := jweightList_pos xs
            omega
          have hxs : jweightList xs ≤ n := by
            have h1 := jweight_pos x
            omega
          have hbx := (ih).1 x hx
          have hbxs := (ih).2.1 xs hxs
          have hlen : (jsonStr (.arr (x :: xs))).length
              = 2 + (jsonStr x).length + (jsonStrElems xs).length := by
            rw [jsonStr]
            simp
            omega
          omega
      | obj fs =>
        cases fs with
        | nil => simp [jweight, jweightFields, jsonStr]
        | cons kv kvs =>
          have hw : jweight (.obj (kv :: kvs))
              = 2 + jweight kv.2 + jweightFields kvs := by
            simp [jweight, jweightFields]
            omega
          have hx : jweight kv.2 ≤ n := by
            have h1 := jweightFields_pos kvs
            omega
          have hxs : jweightFields kvs ≤ n := by
            have h1 := jweight_pos kv.2
            omega
          have hbx := (ih).1 kv.2 hx
          have hbxs := (ih).2.2 kvs hxs
          have hlen : (jsonStr (.obj (kv :: kvs))).length
              = 2 + (escStr kv.1).length + 1 + (jsonStr kv.2).length
                + (jsonStrFields kvs).length := by
            rw [jsonStr]
            simp
            omega
          omega
    · intro xs hxs
      cases xs with
      | nil => simp [jweightList, jsonStrElems]
      | cons x xs =>
        have hw : jweightList (x :: xs) = 1 + jweight x + jweightList xs := by
          simp [jweightList]
        have hx : jweight x ≤ n := by
          have h1 := jweightList_pos xs
          omega
        have hxs2 : jweightList xs ≤ n := by
          have h1 := jweight_pos x
          omega
        have hbx := (ih).1 x hx
        have hbxs := (ih).2.1 xs hxs2
        have hlen : (jsonStrElems (x :: xs)).length
            = 1 + (jsonStr x).length + (jsonStrElems xs).length := by
          rw [jsonStrElems]
          simp
          omega
        omega
    · intro kvs hkvs
      cases kvs with
      | nil => simp [jweightFields, jsonStrFields]
      | cons kv kvs =>
        have hw : jweightFields (kv :: kvs)
            = 1 + jweight kv.2 + jweightFields kvs := by
          simp [jweightFields]
        have hx : jweight kv.2 ≤ n := by
          have h1 := jweightFields_pos kvs
          omega
        have hxs2 : jweightFields kvs ≤ n := by
          have h1 := jweight_pos kv.2
          omega
        have hbx := (ih).1 kv.2 hx
        have hbxs := (ih).2.2 kvs hxs2
        have hlen : (jsonStrFields (kv :: kvs)).length
            = 1 + (escStr kv.1).length + 1 + (jsonStr kv.2).length
              + (jsonStrFields kvs).length := by
          rw [jsonStrFields]
          simp
          omega
        omega

/-- Parsing the compact printed form of a JSON value succeeds and yields a
deep-equal value. -/
theorem jsonParse_stringify (j : JSON) :
    ∃ j', jsonParse (jsonStringify j) = some j' ∧ jsonEq j' j = true := by
  obtain ⟨j', hpv, heq⟩ := (parse_print (2 * (jsonStr j).length + 2)).1 j []
    (by have := (weight_le (jweight j)).1 j (le_refl _); omega)
    (by intro c hc; simp at hc)
  refine ⟨j', ?_, heq⟩
  rw [List.append_nil] at hpv
  rw [jsonParse]
  have hd : (jsonStringify j).data = jsonStr j := rfl
  rw [hd, hpv]
  simp [skipWs]

end JsStorage

namespace JsStorage

/-! ## JavaScript values and the storage backend

The values the codec can receive and produce.  `fn` carries the source
text returned by `Function.prototype.toString`; `obj` is a JSON-composite
value (a plain object or array, the values `JSON.stringify`/`JSON.parse`
exchange). -/

inductive JSValue where
  | undefined
  | null
  | bool (b : Bool)
  | num (n : JSNum)
  | str (s : String)
  | date (d : JSDate)
  | regexp (r : JSRegExp)
  | fn (src : String)
  | obj (j : JSON)

/-- JavaScript truthiness, the `if ( value )` test in `get`: `undefined`,
`null`, `false`, `NaN`, zero and the empty string are falsy; every other
value (every object, in particular) is truthy. -/
def jsTruthy : JSValue → Bool
  | .undefined => false
  | .null => false
  | .bool b => b
  | .num .nan => false
  | .num (.fin m _) => decide (m ≠ 0)
  | .num _ => true
  | .str s => decide (s ≠ "")
  | _ => true

/-- The JavaScript value a parsed JSON document denotes: scalars unwrap to
the corresponding primitives, arrays and objects stay composite values. -/
def jsValOfJson : JSON → JSValue
  | .null => .null
  | .bool b => .bool b
  | .num m e => .num (.fin m e)
  | .str s => .str s
  | j => .obj j

/-- A Web Storage backend: a map from keys to the stored string, `none` for
an absent slot. -/
def Store := String → Option String

def emptyStore : Store := fun _ => none

/-- Modelled from `Storage.prototype.getItem`: the stored string, or the
JavaScript `null` (never `undefined`) for an absent key. -/
def getItem (st : Store) (k : String) : JSValue :=
  match st k with
  | some s => .str s
  | none => .null

/-- Modelled from `Storage.prototype.setItem` (its argument already coerced
to a string). -/
def setItem (st : Store) (k v : String) : Store :=
  fun k' => if k' = k then some v else st k'

/-- Modelled from `Storage.prototype.removeItem`. -/
def removeItem (st : Store) (k : String) : Store :=
  fun k' => if k' = k then none else st k'

end JsStorage

namespace JsStorage

/-! ## The codec -/

/-- `value?.length || 0` in `decode`: the optional chain gives `undefined`
on `null`/`undefined` and `|| 0` turns that (or a zero length) into 0;
only strings reach their length here. -/
def lengthOrZero : JSValue → ℕ
  | .str s => s.length
  | _ => 0

/-- The errors `decode` can let escape: `badJson` the SyntaxError of
`JSON.parse`, `badPattern` the SyntaxError of `new RegExp`. -/
inductive JSErr where
  | badJson
  | badPattern
deriving DecidableEq

/-- The `switch ( value.substring( 0, 8 ) )` of `decode`, with `source`
the payload `value.substring( 9 )` and `value` the whole stored string
(returned unchanged by the `default` arm). -/
def decodeTag (tag source value : String) : Except JSErr (Option JSValue) :=
  if tag = "__date__" then .ok (some (.date (dateParse source)))
  else if tag = "__expr__" then
    match compileRegExp source with
    | some r => .ok (some (.regexp r))
    | none => .error .badPattern
  else if tag = "__numb__" then .ok (some (.num (numParse source)))
  else if tag = "__bool__" then .ok (some (.bool (source == "1")))
  else if tag = "__strn__" then .ok (some (.str source))
  else if tag = "__objt__" then
    match jsonParse source with
    | some j => .ok (some (jsValOfJson j))
    | none => .error .badJson
  else .ok (some (.str value))

/-- Modelled from the `decode` closure in `Storage.get`: `ok none` is the
JavaScript `undefined` returned for short or absent values, the error cases
are the exceptions the decoders throw.  Only a string can pass the length
guard, so the non-string fallthrough below is unreachable. -/
def decode (value : JSValue) : Except JSErr (Option JSValue) :=
  if lengthOrZero value < 10 then .ok none
  else
    match value with
    | .str s => decodeTag ⟨s.data.take 8⟩ ⟨s.data.drop 9⟩ s
    | v => .ok (some v)

/-- Modelled from the `encode` closure in `Storage.set`, first match wins:
dates, regexes, numbers, booleans, strings, functions and composites get a
tagged record; anything else (`undefined`/`null`) falls through as the raw
value, to be string-coerced by `setItem`. -/
def encode : JSValue → JSValue
  | .date d => .str ("__date__|" ++ d.toUTCString)
  | .regexp r => .str ("__expr__|" ++ r.src)
  | .num n => .str ("__numb__|" ++ n.toString)
  | .bool b => .str ("__bool__|" ++ (if b then "1" else "0"))
  | .str s => .str ("__strn__|" ++ s)
  | .fn src => .str ("__strn__|" ++ src)
  | .obj j => .str ("__objt__|" ++ jsonStringify j)
  | v => v

/-- The ECMAScript `ToString` coercion `setItem` applies to its argument.
`encode` only ever produces a string or passes `undefined`/`null` through,
so only those three arms are reachable from the codec; the others follow
`ToString` where it is context-free (booleans, numbers, regexes, function
source), and the date and composite arms — whose real conversions are
locale-dependent or element-wise — are approximated and never reached. -/
def storeString : JSValue → String
  | .str s => s
  | .undefined => "undefined"
  | .null => "null"
  | .bool b => if b then "true" else "false"
  | .num n => n.toString
  | .fn src => src
  | .regexp r => "/" ++ r.src ++ "/" ++ r.flags
  | .date d => d.toUTCString
  | .obj _ => "[object Object]"

/-- Modelled from `Storage.has`: `getItem( key ) !== undefined`. -/
def Storage.has (st : Store) (k : String) : Bool :=
  match getItem st k with
  | .undefined => false
  | _ => true

/-- Modelled from `Storage.remove`. -/
def Storage.remove (st : Store) (k : String) : Store := removeItem st k

/-- Modelled from `Storage.get`: decode the slot; a truthy decoded value is
returned, anything else gives `default_value`; decoder exceptions
propagate. -/
def Storage.get (st : Store) (k : String) (default_value : JSValue) :
    Except JSErr JSValue :=
  match decode (getItem st k) with
  | .error e => .error e
  | .ok (some v) => if jsTruthy v then .ok v else .ok default_value
  | .ok none => .ok default_value

/-- Modelled from `Storage.set`: `setItem( key, encode( value ) )`. -/
def Storage.set (st : Store) (k : String) (v : JSValue) : Store :=
  setItem st k (storeString (encode v))

end JsStorage

namespace JsStorage

/-! ## Plumbing: evaluating the codec on tagged records -/

theorem getItem_setItem (st : Store) (k v : String) :
    getItem (setItem st k v) k = .str v := by
  simp [getItem, setItem]

theorem getItem_removeItem (st : Store) (k : String) :
    getItem (removeItem st k) k = .null := by
  simp [getItem, removeItem]

theorem decode_short {v : JSValue} (h : lengthOrZero v < 10) :
    decode v = .ok none := by
  cases v <;> rw [decode, if_pos h]
  all_goals intro s hs
  all_goals exact JSValue.noConfusion hs

theorem decode_str_long {s : String} (h : ¬ s.length < 10) :
    decode (.str s) = decodeTag ⟨s.data.take 8⟩ ⟨s.data.drop 9⟩ s := by
  rw [decode, if_neg (show ¬ lengthOrZero (.str s) < 10 from h)]

theorem length_header_append (c1 c2 c3 c4 c5 c6 c7 c8 c9 : Char) (p : List Char) :
    (⟨c1 :: c2 :: c3 :: c4 :: c5 :: c6 :: c7 :: c8 :: c9 :: p⟩ : String).length
      = 9 + p.length := by
  simp [String.length]
  omega

theorem take8_header (c1 c2 c3 c4 c5 c6 c7 c8 c9 : Char) (p : List Char) :
    (c1 :: c2 :: c3 :: c4 :: c5 :: c6 :: c7 :: c8 :: c9 :: p).take 8
      = [c1, c2, c3, c4, c5, c6, c7, c8] := rfl

theorem drop9_header (c1 c2 c3 c4 c5 c6 c7 c8 c9 : Char) (p : List Char) :
    (c1 :: c2 :: c3 :: c4 :: c5 :: c6 :: c7 :: c8 :: c9 :: p).drop 9 = p := rfl

theorem not_short_of_ne_nil {p : List Char} (hp : p ≠ []) (q : String)
    (hq : q.length = 9 + p.length) : ¬ q.length < 10 := by
  rw [hq]
  cases p with
  | nil => exact absurd rfl hp
  | cons c t => rw [List.length_cons]; omega

theorem decode_date (p : String) (hp : p.data ≠ []) :
    decode (.str ("__date__|" ++ p)) = .ok (some (.date (dateParse p))) := by
  have hdata : ("__date__|" ++ p).data
      = '_' :: '_' :: 'd' :: 'a' :: 't' :: 'e' :: '_' :: '_' :: '|' :: p.data := rfl
  have hlen : ("__date__|" ++ p).length = 9 + p.data.length := by
    rw [show ("__date__|" ++ p).length = ("__date__|" ++ p).data.length from rfl, hdata]
    simp
    try omega
  rw [decode_str_long (not_short_of_ne_nil hp _ hlen), hdata,
    take8_header, drop9_header, decodeTag, if_pos rfl, string_mk_data]

theorem decode_expr (p : String) (hp : p.data ≠ []) :
    decode (.str ("__expr__|" ++ p))
      = match compileRegExp p with
        | some r => .ok (some (.regexp r))
        | none => .error .badPattern := by
  have hdata : ("__expr__|" ++ p).data
      = '_' :: '_' :: 'e' :: 'x' :: 'p' :: 'r' :: '_' :: '_' :: '|' :: p.data := rfl
  have hlen : ("__expr__|" ++ p).length = 9 + p.data.length := by
    rw [show ("__expr__|" ++ p).length = ("__expr__|" ++ p).data.length from rfl, hdata]
    simp
    try omega
  rw [decode_str_long (not_short_of_ne_nil hp _ hlen), hdata,
    take8_header, drop9_header, decodeTag, if_neg (by decide), if_pos rfl,
    string_mk_data]

theorem decode_numb (p : String) (hp : p.data ≠ []) :
    decode (.str ("__numb__|" ++ p)) = .ok (some (.num (numParse p))) := by
  have hdata : ("__numb__|" ++ p).data
      = '_' :: '_' :: 'n' :: 'u' :: 'm' :: 'b' :: '_' :: '_' :: '|' :: p.data := rfl
  have hlen : ("__numb__|" ++ p).length = 9 + p.data.length := by
    rw [show ("__numb__|" ++ p).length = ("__numb__|" ++ p).data.length from rfl, hdata]
    simp
    try omega
  rw [decode_str_long (not_short_of_ne_nil hp _ hlen), hdata,
    take8_header, drop9_header, decodeTag, if_neg (by decide), if_neg (by decide),
    if_pos rfl, string_mk_data]

theorem decode_boolTag (p : String) (hp : p.data ≠ []) :
    decode (.str ("__bool__|" ++ p)) = .ok (some (.bool (p == "1"))) := by
  have hdata : ("__bool__|" ++ p).data
      = '_' :: '_' :: 'b' :: 'o' :: 'o' :: 'l' :: '_' :: '_' :: '|' :: p.data := rfl
  have hlen : ("__bool__|" ++ p).length = 9 + p.data.length := by
    rw [show ("__bool__|" ++ p).length = ("__bool__|" ++ p).data.length from rfl, hdata]
    simp
    try omega
  rw [decode_str_long (not_short_of_ne_nil hp _ hlen), hdata,
    take8_header, drop9_header, decodeTag, if_neg (by decide), if_neg (by decide),
    if_neg (by decide), if_pos rfl, string_mk_data]

theorem decode_strn (p : String) (hp : p.data ≠ []) :
    decode (.str ("__strn__|" ++ p)) = .ok (some (.str p)) := by
  have hdata : ("__strn__|" ++ p).data
      = '_' :: '_' :: 's' :: 't' :: 'r' :: 'n' :: '_' :: '_' :: '|' :: p.data := rfl
  have hlen : ("__strn__|" ++ p).length = 9 + p.data.length := by
    rw [show ("__strn__|" ++ p).length = ("__strn__|" ++ p).data.length from rfl, hdata]
    simp
    try omega
  rw [decode_str_long (not_short_of_ne_nil hp _ hlen), hdata,
    take8_header, drop9_header, decodeTag, if_neg (by decide), if_neg (by decide),
    if_neg (by decide), if_neg (by decide), if_pos rfl, string_mk_data]

theorem decode_objt (p : String) (hp : p.data ≠ []) :
    decode (.str ("__objt__|" ++ p))
      = match jsonParse p with
        | some j => .ok (some (jsValOfJson j))
        | none => .error .badJson := by
  have hdata : ("__objt__|" ++ p).data
      = '_' :: '_' :: 'o' :: 'b' :: 'j' :: 't' :: '_' :: '_' :: '|' :: p.data := rfl
  have hlen : ("__objt__|" ++ p).length = 9 + p.data.length := by
    rw [show ("__objt__|" ++ p).length = ("__objt__|" ++ p).data.length from rfl, hdata]
    simp
    try omega
  rw [decode_str_long (not_short_of_ne_nil hp _ hlen), hdata,
    take8_header, drop9_header, decodeTag, if_neg (by decide), if_neg (by decide),
    if_neg (by decide), if_neg (by decide), if_neg (by decide), if_pos rfl]

theorem ne_empty_of_data_ne_nil {p : String} (h : p.data ≠ []) : p ≠ "" := by
  intro hc
  exact h (by rw [hc])

theorem data_ne_nil_of_ne_empty {p : String} (h : p ≠ "") : p.data ≠ [] := by
  intro hc
  exact h (by cases p with | mk l => cases hc; rfl)

end JsStorage

namespace JsStorage

theorem get_of_decode_some {st : Store} {k : String} {D v : JSValue}
    (h : decode (getItem st k) = .ok (some v)) :
    Storage.get st k D = if jsTruthy v then .ok v else .ok D := by
  rw [Storage.get, h]

theorem get_of_decode_none {st : Store} {k : String} {D : JSValue}
    (h : decode (getItem st k) = .ok none) :
    Storage.get st k D = .ok D := by
  rw [Storage.get, h]

theorem get_eq_of_decode_error {st : Store} {k : String} {D : JSValue}
    {e : JSErr} (h : decode (getItem st k) = .error e) :
    Storage.get st k D = .error e := by
  rw [Storage.get, h]

theorem get_ne_error_of_decode_ok {st : Store} {k : String} {D : JSValue}
    {ov : Option JSValue} (h : decode (getItem st k) = .ok ov) (e : JSErr) :
    Storage.get st k D ≠ .error e := by
  cases ov with
  | none => rw [get_of_decode_none h]; simp
  | some v =>
    rw [get_of_decode_some h]
    by_cases ht : jsTruthy v <;> simp [ht]

end JsStorage

namespace JsStorage

/-! ## The claims -/

/-- C1: the spec's existence law — `has(key)` true after `set`, false after
`remove`, and in general true iff the backend holds a slot — fails in the
code.  `has` is `getItem( key ) !== undefined`, but a Web Storage backend
returns `null`, never `undefined`, for an absent key, so the comparison is
vacuous: `has` returns `true` on every store and every key, in particular
immediately after `remove`, where the law requires `false`. -/
theorem C1_has_always_true (st : Store) (k : String) :
    Storage.has st k = true ∧ Storage.has (Storage.remove st k) k = true := by
  constructor
  · cases h : st k <;> simp [Storage.has, getItem, h]
  · simp [Storage.has, Storage.remove, getItem, removeItem]

/-- C6: the absence law holds: on a key the backend has no slot for, `get`
returns the default, and it does so after `remove(key)` following any
`set(key, v)`. -/
theorem C6_absence (st : Store) (k : String) (D : JSValue) (h : st k = none) :
    Storage.get st k D = .ok D ∧
      ∀ (st' : Store) (v : JSValue),
        Storage.get (Storage.remove (Storage.set st' k v) k) k D = .ok D := by
  constructor
  · have h1 : getItem st k = .null := by rw [getItem, h]
    have h2 : decode (getItem st k) = .ok none := by
      rw [h1]
      exact decode_short (by decide)
    rw [get_of_decode_none h2]
  · intro st' v
    have h1 : getItem (Storage.remove (Storage.set st' k v) k) k = .null :=
      getItem_removeItem _ k
    have h2 : decode (getItem (Storage.remove (Storage.set st' k v) k) k)
        = .ok none := by
      rw [h1]
      exact decode_short (by decide)
    rw [get_of_decode_none h2]

theorem C6_absence_witness :
    emptyStore "k" = none ∧
      (Storage.get emptyStore "k" (.str "d") = .ok (.str "d") ∧
        ∀ (st' : Store) (v : JSValue),
          Storage.get (Storage.remove (Storage.set st' "k" v) "k") "k" (.str "d")
            = .ok (.str "d")) :=
  ⟨rfl, C6_absence emptyStore "k" (.str "d") rfl⟩

/-- C8: whatever the backend holds, a successful `get(key, D)` returns
either a truthy value or exactly the supplied default: the final
`if ( value )` check lets no falsy decoded value other than `D` escape. -/
theorem C8_truthy_or_default (st : Store) (k : String) (D v : JSValue)
    (h : Storage.get st k D = .ok v) : jsTruthy v = true ∨ v = D := by
  cases hd : decode (getItem st k) with
  | error e =>
    rw [get_eq_of_decode_error (D := D) hd] at h
    exact absurd h (by simp)
  | ok ov =>
    cases ov with
    | none =>
      right
      rw [get_of_decode_none hd] at h
      simpa using h.symm
    | some w =>
      rw [get_of_decode_some hd] at h
      by_cases ht : jsTruthy w
      · rw [if_pos ht] at h
        left
        have hw : w = v := by simpa using h
        rw [← hw]
        exact ht
      · rw [if_neg ht] at h
        right
        simpa using h.symm

theorem C8_truthy_or_default_witness :
    Storage.get emptyStore "k" (.str "d") = .ok (.str "d") ∧
      (jsTruthy (.str "d") = true ∨ (JSValue.str "d") = .str "d") :=
  ⟨rfl, C8_truthy_or_default emptyStore "k" (.str "d") (.str "d") rfl⟩

end JsStorage

namespace JsStorage

/-- C5: tag robustness holds: a stored string shorter than 10 characters
decodes to "no value" and `get` falls back to the default; a stored string
of length at least 10 whose first 8 characters match none of the six tags
is returned whole and unchanged by `get` (it is non-empty, hence truthy,
so the masking rule cannot substitute the default). -/
theorem C5_tag_robustness (st : Store) (k : String) (D : JSValue) (s : String)
    (h : st k = some s) :
    (s.length < 10 → Storage.get st k D = .ok D) ∧
    (10 ≤ s.length →
      (⟨s.data.take 8⟩ : String) ≠ "__date__" →
      (⟨s.data.take 8⟩ : String) ≠ "__expr__" →
      (⟨s.data.take 8⟩ : String) ≠ "__numb__" →
      (⟨s.data.take 8⟩ : String) ≠ "__bool__" →
      (⟨s.data.take 8⟩ : String) ≠ "__strn__" →
      (⟨s.data.take 8⟩ : String) ≠ "__objt__" →
      Storage.get st k D = .ok (.str s)) := by
  have hgi : getItem st k = .str s := by rw [getItem, h]
  constructor
  · intro hshort
    have h2 : decode (getItem st k) = .ok none := by
      rw [hgi]
      exact decode_short hshort
    rw [get_of_decode_none h2]
  · intro hlong h1 h2 h3 h4 h5 h6
    have hd : decode (getItem st k) = .ok (some (.str s)) := by
      rw [hgi, decode_str_long (by omega), decodeTag, if_neg h1, if_neg h2,
        if_neg h3, if_neg h4, if_neg h5, if_neg h6]
    rw [get_of_decode_some hd, if_pos ?_]
    have hne : s ≠ "" := by
      intro hc
      rw [hc] at hlong
      exact absurd hlong (by decide)
    simp [jsTruthy, hne]

theorem C5_tag_robustness_witness :
    (setItem emptyStore "k" "abcdefgh|raw") "k" = some "abcdefgh|raw" ∧
      ((("abcdefgh|raw" : String).length < 10 →
        Storage.get (setItem emptyStore "k" "abcdefgh|raw") "k" .undefined
          = .ok .undefined) ∧
      (10 ≤ ("abcdefgh|raw" : String).length →
        (⟨("abcdefgh|raw" : String).data.take 8⟩ : String) ≠ "__date__" →
        (⟨("abcdefgh|raw" : String).data.take 8⟩ : String) ≠ "__expr__" →
        (⟨("abcdefgh|raw" : String).data.take 8⟩ : String) ≠ "__numb__" →
        (⟨("abcdefgh|raw" : String).data.take 8⟩ : String) ≠ "__bool__" →
        (⟨("abcdefgh|raw" : String).data.take 8⟩ : String) ≠ "__strn__" →
        (⟨("abcdefgh|raw" : String).data.take 8⟩ : String) ≠ "__objt__" →
        Storage.get (setItem emptyStore "k" "abcdefgh|raw") "k" .undefined
          = .ok (.str "abcdefgh|raw"))) :=
  ⟨rfl, C5_tag_robustness (setItem emptyStore "k" "abcdefgh|raw") "k"
    .undefined "abcdefgh|raw" rfl⟩

/-- C9: a `__date__` record with an unparseable payload decodes to an
Invalid Date, which is an object and therefore truthy, so `get` returns it
rather than the default: malformed date payloads escape both the absence
fallback and the falsy-masking rule. -/
theorem C9_invalid_date_not_masked (p : String) (hp : dateParse p = .invalid)
    (hne : p ≠ "") :
    ∀ (st : Store) (k : String) (D : JSValue),
      Storage.get (setItem st k ("__date__|" ++ p)) k D = .ok (.date .invalid) := by
  intro st k D
  have hd : decode (getItem (setItem st k ("__date__|" ++ p)) k)
      = .ok (some (.date .invalid)) := by
    rw [getItem_setItem, decode_date p (data_ne_nil_of_ne_empty hne), hp]
  rw [get_of_decode_some hd,
    if_pos (show jsTruthy (.date .invalid) = true from rfl)]

theorem C9_invalid_date_not_masked_witness :
    dateParse "nope" = .invalid ∧ ("nope" : String) ≠ "" ∧
      Storage.get (setItem emptyStore "k" ("__date__|" ++ "nope")) "k" .undefined
        = .ok (.date .invalid) :=
  ⟨rfl, by decide,
    C9_invalid_date_not_masked "nope" rfl (by decide) emptyStore "k" .undefined⟩

/-- C10: a `__numb__` record with a non-numeric payload decodes to `NaN`,
which is falsy, so `get` silently substitutes the default: malformed number
payloads are masked, and never produce an error or a `NaN` result. -/
theorem C10_nan_masked (p : String) (hp : numParse p = .nan) (hne : p ≠ "") :
    ∀ (st : Store) (k : String) (D : JSValue),
      Storage.get (setItem st k ("__numb__|" ++ p)) k D = .ok D := by
  intro st k D
  have hd : decode (getItem (setItem st k ("__numb__|" ++ p)) k)
      = .ok (some (.num .nan)) := by
    rw [getItem_setItem, decode_numb p (data_ne_nil_of_ne_empty hne), hp]
  rw [get_of_decode_some hd, if_neg (by simp [jsTruthy])]

theorem C10_nan_masked_witness :
    numParse "abc" = .nan ∧ ("abc" : String) ≠ "" ∧
      Storage.get (setItem emptyStore "k" ("__numb__|" ++ "abc")) "k" (.str "d")
        = .ok (.str "d") :=
  ⟨rfl, by decide,
    C10_nan_masked "abc" rfl (by decide) emptyStore "k" (.str "d")⟩

end JsStorage

namespace JsStorage

/-- C3: the masking law holds: storing any falsy value — `undefined`,
`null`, `false`, `NaN`, a zero number, or the empty string — and reading
the key back gives the default, never the stored value: the decoded result
is falsy (or, for `undefined`/`null`/`""`, the stored record is shorter
than 10 characters), so `get` substitutes `default_value`. -/
theorem C3_masking (v : JSValue) (hv : jsTruthy v = false) :
    ∀ (st : Store) (k : String) (D : JSValue),
      Storage.get (Storage.set st k v) k D = .ok D := by
  intro st k D
  cases v with
  | undefined =>
    have h1 : getItem (Storage.set st k .undefined) k = .str "undefined" :=
      getItem_setItem st k _
    have h2 : decode (getItem (Storage.set st k .undefined) k) = .ok none := by
      rw [h1]
      exact decode_short (by decide)
    rw [get_of_decode_none h2]
  | null =>
    have h1 : getItem (Storage.set st k .null) k = .str "null" :=
      getItem_setItem st k _
    have h2 : decode (getItem (Storage.set st k .null) k) = .ok none := by
      rw [h1]
      exact decode_short (by decide)
    rw [get_of_decode_none h2]
  | bool b =>
    cases b with
    | true => exact absurd hv (by decide)
    | false =>
      have h1 : getItem (Storage.set st k (.bool false)) k
          = .str ("__bool__|" ++ "0") := getItem_setItem st k _
      have h2 : decode (getItem (Storage.set st k (.bool false)) k)
          = .ok (some (.bool (("0" : String) == "1"))) := by
        rw [h1]
        exact decode_boolTag "0" (by decide)
      rw [get_of_decode_some h2,
        if_neg (show ¬ jsTruthy (.bool (("0" : String) == "1")) = true by decide)]
  | num n =>
    cases n with
    | nan =>
      have h1 : getItem (Storage.set st k (.num .nan)) k
          = .str ("__numb__|" ++ "NaN") := getItem_setItem st k _
      have h2 : decode (getItem (Storage.set st k (.num .nan)) k)
          = .ok (some (.num (numParse "NaN"))) := by
        rw [h1]
        exact decode_numb "NaN" (by decide)
      have h3 : numParse "NaN" = .nan := rfl
      rw [get_of_decode_some h2, h3,
        if_neg (show ¬ jsTruthy (.num .nan) = true by decide)]
    | inf => exact absurd hv (by decide)
    | neginf => exact absurd hv (by decide)
    | fin m e =>
      have hm : m = 0 := by simpa [jsTruthy] using hv
      obtain ⟨m', e', hparse, hval⟩ := numParse_toString_fin m e
      have hm' : m' = 0 := by
        rw [hm] at hval
        have h0 : finVal 0 e = 0 := by simp [finVal]
        rw [h0] at hval
        exact finVal_eq_zero_iff.mp hval
      obtain ⟨c, t, hct, _⟩ := toString_fin_shape m e
      have h1 : getItem (Storage.set st k (.num (.fin m e))) k
          = .str ("__numb__|" ++ (JSNum.fin m e).toString) := getItem_setItem st k _
      have h2 : decode (getItem (Storage.set st k (.num (.fin m e))) k)
          = .ok (some (.num (numParse (JSNum.fin m e).toString))) := by
        rw [h1]
        exact decode_numb _ (by rw [hct]; simp)
      rw [get_of_decode_some h2, hparse,
        if_neg (show ¬ jsTruthy (.num (.fin m' e')) = true by simp [jsTruthy, hm'])]
  | str s =>
    have hs : s = "" := by simpa [jsTruthy] using hv
    subst hs
    have h1 : getItem (Storage.set st k (.str "")) k
        = .str ("__strn__|" ++ "") := getItem_setItem st k _
    have h2 : decode (getItem (Storage.set st k (.str "")) k) = .ok none := by
      rw [h1]
      exact decode_short (by decide)
    rw [get_of_decode_none h2]
  | date d => simp [jsTruthy] at hv
  | regexp r => simp [jsTruthy] at hv
  | fn s => simp [jsTruthy] at hv
  | obj j => simp [jsTruthy] at hv

theorem C3_masking_witness :
    jsTruthy (.bool false) = false ∧
      Storage.get (Storage.set emptyStore "k" (.bool false)) "k" (.str "d")
        = .ok (.str "d") :=
  ⟨rfl, C3_masking (.bool false) rfl emptyStore "k" (.str "d")⟩

/-- C7: regex flags are dropped: `set` writes `__expr__|` followed by the
pattern's source text only — the flags appear nowhere in the record — and
`get` on such a record rebuilds a regex whose source is the payload and
whose flags are empty, whatever flags the stored regex had. -/
theorem C7_regex_flags_dropped (r : JSRegExp) (h1 : patternOk r.src = true)
    (h2 : r.src ≠ "") :
    ∀ (st : Store) (k : String) (D : JSValue),
      (Storage.set st k (.regexp r)) k = some ("__expr__|" ++ r.src) ∧
        Storage.get (Storage.set st k (.regexp r)) k D
          = .ok (.regexp ⟨r.src, ""⟩) := by
  intro st k D
  refine ⟨?_, ?_⟩
  · show (if k = k then some (storeString (encode (.regexp r))) else st k)
        = some ("__expr__|" ++ r.src)
    rw [if_pos rfl]
    exact rfl
  · have hgi : getItem (Storage.set st k (.regexp r)) k
        = .str ("__expr__|" ++ r.src) := getItem_setItem st k _
    have hc : compileRegExp r.src = some ⟨r.src, ""⟩ := by
      rw [compileRegExp, if_pos h1, if_neg h2]
    have hd : decode (getItem (Storage.set st k (.regexp r)) k)
        = .ok (some (.regexp ⟨r.src, ""⟩)) := by
      rw [hgi, decode_expr r.src (data_ne_nil_of_ne_empty h2), hc]
    rw [get_of_decode_some hd,
      if_pos (show jsTruthy (.regexp ⟨r.src, ""⟩) = true from rfl)]

theorem C7_regex_flags_dropped_witness :
    patternOk ("a" : String) = true ∧ ("a" : String) ≠ "" ∧
      ((Storage.set emptyStore "k" (.regexp ⟨"a", "gi"⟩)) "k"
          = some ("__expr__|" ++ "a") ∧
        Storage.get (Storage.set emptyStore "k" (.regexp ⟨"a", "gi"⟩)) "k"
          .undefined = .ok (.regexp ⟨"a", ""⟩)) :=
  ⟨rfl, by decide,
    C7_regex_flags_dropped ⟨"a", "gi"⟩ rfl (by decide) emptyStore "k" .undefined⟩

end JsStorage

namespace JsStorage

/-- C4 (counterexample): the claim says `get` throws exactly on `__objt__`
records with bad JSON, but a stored `__expr__` record whose payload is not
a valid pattern — here `(`, an unterminated group — also throws: `new
RegExp( source )` raises a SyntaxError the code does not catch. -/
theorem C4_counterexample :
    Storage.get (setItem emptyStore "k" "__expr__|(") "k" .undefined
        = .error .badPattern ∧
      (⟨("__expr__|(" : String).data.take 8⟩ : String) ≠ "__objt__" := by
  constructor
  · rfl
  · decide

/-- C4 (amended): `get` propagates an uncaught exception only out of the
`__objt__` and `__expr__` arms: (a) any error implies the stored string is
at least 10 characters long and tagged `__objt__` or `__expr__`, so `get`
is total on strings shorter than the header, on unrecognized tags, and on
the four other tags; (b) a stored `__objt__` record throws exactly when
its payload is not valid JSON; (c) a stored `__expr__` record throws
whenever its payload fails the bracket-balance/backslash validity check —
a sound necessary condition of real pattern validity, so such payloads
make the real `new RegExp` throw as well; no totality is claimed for
balanced `__expr__` payloads that the full ECMAScript pattern grammar
still rejects. -/
theorem C4_amended (st : Store) (k : String) (D : JSValue) (s : String)
    (h : st k = some s) :
    ((∃ e, Storage.get st k D = .error e) →
        10 ≤ s.length ∧
          ((⟨s.data.take 8⟩ : String) = "__objt__" ∨
           (⟨s.data.take 8⟩ : String) = "__expr__")) ∧
    (10 ≤ s.length → (⟨s.data.take 8⟩ : String) = "__objt__" →
        ((∃ e, Storage.get st k D = .error e) ↔
          jsonParse ⟨s.data.drop 9⟩ = none)) ∧
    (10 ≤ s.length → (⟨s.data.take 8⟩ : String) = "__expr__" →
        patternOk ⟨s.data.drop 9⟩ = false →
        Storage.get st k D = .error .badPattern) := by
  have hgi : getItem st k = .str s := by rw [getItem, h]
  by_cases hlen : s.length < 10
  · have hd : decode (getItem st k) = .ok none := by
      rw [hgi]
      exact decode_short hlen
    refine ⟨?_, ?_, ?_⟩
    · rintro ⟨e, he⟩
      exact absurd he (get_ne_error_of_decode_ok hd e)
    · intro h10
      omega
    · intro h10
      omega
  · have hds : decode (getItem st k)
        = decodeTag ⟨s.data.take 8⟩ ⟨s.data.drop 9⟩ s := by
      rw [hgi]
      exact decode_str_long hlen
    by_cases h1 : (⟨s.data.take 8⟩ : String) = "__date__"
    · have hd : decode (getItem st k)
          = .ok (some (.date (dateParse ⟨s.data.drop 9⟩))) := by
        rw [hds, decodeTag, if_pos h1]
      refine ⟨?_, ?_, ?_⟩
      · rintro ⟨e, he⟩
        exact absurd he (get_ne_error_of_decode_ok hd e)
      · intro _ hobjt
        rw [h1] at hobjt
        exact absurd hobjt (by decide)
      · intro _ hexpr _
        rw [h1] at hexpr
        exact absurd hexpr (by decide)
    by_cases h2 : (⟨s.data.take 8⟩ : String) = "__expr__"
    · cases hc : compileRegExp ⟨s.data.drop 9⟩ with
      | some r =>
        have hd : decode (getItem st k) = .ok (some (.regexp r)) := by
          rw [hds, decodeTag, if_neg h1, if_pos h2, hc]
        refine ⟨?_, ?_, ?_⟩
        · rintro ⟨e, he⟩
          exact absurd he (get_ne_error_of_decode_ok hd e)
        · intro _ hobjt
          rw [h2] at hobjt
          exact absurd hobjt (by decide)
        · intro _ _ hpat
          have hnone : compileRegExp ⟨s.data.drop 9⟩ = none := by
            rw [compileRegExp, if_neg (by simp [hpat])]
          rw [hnone] at hc
          exact Option.noConfusion hc
      | none =>
        have hd : decode (getItem st k) = .error .badPattern := by
          rw [hds, decodeTag, if_neg h1, if_pos h2, hc]
        refine ⟨?_, ?_, ?_⟩
        · intro _
          exact ⟨by omega, Or.inr h2⟩
        · intro _ hobjt
          rw [h2] at hobjt
          exact absurd hobjt (by decide)
        · intro _ _ _
          exact get_eq_of_decode_error hd
    by_cases h3 : (⟨s.data.take 8⟩ : String) = "__numb__"
    · have hd : decode (getItem st k)
          = .ok (some (.num (numParse ⟨s.data.drop 9⟩))) := by
        rw [hds, decodeTag, if_neg h1, if_neg h2, if_pos h3]
      refine ⟨?_, ?_, ?_⟩
      · rintro ⟨e, he⟩
        exact absurd he (get_ne_error_of_decode_ok hd e)
      · intro _ hobjt
        rw [h3] at hobjt
        exact absurd hobjt (by decide)
      · intro _ hexpr _
        rw [h3] at hexpr
        exact absurd hexpr (by decide)
    by_cases h4 : (⟨s.data.take 8⟩ : String) = "__bool__"
    · have hd : decode (getItem st k)
          = .ok (some (.bool ((⟨s.data.drop 9⟩ : String) == "1"))) := by
        rw [hds, decodeTag, if_neg h1, if_neg h2, if_neg h3, if_pos h4]
      refine ⟨?_, ?_, ?_⟩
      · rintro ⟨e, he⟩
        exact absurd he (get_ne_error_of_decode_ok hd e)
      · intro _ hobjt
        rw [h4] at hobjt
        exact absurd hobjt (by decide)
      · intro _ hexpr _
        rw [h4] at hexpr
        exact absurd hexpr (by decide)
    by_cases h5 : (⟨s.data.take 8⟩ : String) = "__strn__"
    · have hd : decode (getItem st k)
          = .ok (some (.str ⟨s.data.drop 9⟩)) := by
        rw [hds, decodeTag, if_neg h1, if_neg h2, if_neg h3, if_neg h4,
          if_pos h5]
      refine ⟨?_, ?_, ?_⟩
      · rintro ⟨e, he⟩
        exact absurd he (get_ne_error_of_decode_ok hd e)
      · intro _ hobjt
        rw [h5] at hobjt
        exact absurd hobjt (by decide)
      · intro _ hexpr _
        rw [h5] at hexpr
        exact absurd hexpr (by decide)
    by_cases h6 : (⟨s.data.take 8⟩ : String) = "__objt__"
    · cases hj : jsonParse ⟨s.data.drop 9⟩ with
      | some j =>
        have hd : decode (getItem st k) = .ok (some (jsValOfJson j)) := by
          rw [hds, decodeTag, if_neg h1, if_neg h2, if_neg h3, if_neg h4,
            if_neg h5, if_pos h6, hj]
        refine ⟨?_, ?_, ?_⟩
        · rintro ⟨e, he⟩
          exact absurd he (get_ne_error_of_decode_ok hd e)
        · intro _ _
          apply iff_of_false
          · rintro ⟨e, he⟩
            exact absurd he (get_ne_error_of_decode_ok hd e)
          · exact fun hcon => Option.noConfusion hcon
        · intro _ hexpr _
          rw [h6] at hexpr
          exact absurd hexpr (by decide)
      | none =>
        have hd : decode (getItem st k) = .error .badJson := by
          rw [hds, decodeTag, if_neg h1, if_neg h2, if_neg h3, if_neg h4,
            if_neg h5, if_pos h6, hj]
        refine ⟨?_, ?_, ?_⟩
        · intro _
          exact ⟨by omega, Or.inl h6⟩
        · intro _ _
          exact iff_of_true ⟨.badJson, get_eq_of_decode_error hd⟩ rfl
        · intro _ hexpr _
          rw [h6] at hexpr
          exact absurd hexpr (by decide)
    · have hd : decode (getItem st k) = .ok (some (.str s)) := by
        rw [hds, decodeTag, if_neg h1, if_neg h2, if_neg h3, if_neg h4,
          if_neg h5, if_neg h6]
      refine ⟨?_, ?_, ?_⟩
      · rintro ⟨e, he⟩
        exact absurd he (get_ne_error_of_decode_ok hd e)
      · intro _ hobjt
        exact absurd hobjt h6
      · intro _ hexpr _
        exact absurd hexpr h2

theorem C4_amended_witness :
    (setItem emptyStore "k" "__objt__|x") "k" = some "__objt__|x" ∧
      (((∃ e, Storage.get (setItem emptyStore "k" "__objt__|x") "k" .undefined
            = .error e) →
          10 ≤ ("__objt__|x" : String).length ∧
            ((⟨("__objt__|x" : String).data.take 8⟩ : String) = "__objt__" ∨
             (⟨("__objt__|x" : String).data.take 8⟩ : String) = "__expr__")) ∧
      (10 ≤ ("__objt__|x" : String).length →
        (⟨("__objt__|x" : String).data.take 8⟩ : String) = "__objt__" →
          ((∃ e, Storage.get (setItem emptyStore "k" "__objt__|x") "k"
              .undefined = .error e) ↔
            jsonParse ⟨("__objt__|x" : String).data.drop 9⟩ = none)) ∧
      (10 ≤ ("__objt__|x" : String).length →
        (⟨("__objt__|x" : String).data.take 8⟩ : String) = "__expr__" →
          patternOk ⟨("__objt__|x" : String).data.drop 9⟩ = false →
          Storage.get (setItem emptyStore "k" "__objt__|x") "k" .undefined
            = .error .badPattern)) :=
  ⟨rfl, C4_amended (setItem emptyStore "k" "__objt__|x") "k" .undefined
    "__objt__|x" rfl⟩

end JsStorage

namespace JsStorage

theorem jsTruthy_date (d : JSDate) : jsTruthy (.date d) = true := rfl

theorem jsTruthy_regexp (r : JSRegExp) : jsTruthy (.regexp r) = true := rfl

theorem jsTruthy_obj (j : JSON) : jsTruthy (.obj j) = true := rfl

/-- Value equality per kind, as the spec's round trip compares values:
numbers by numeric value, dates as instants, regexes by source text only
(flags not compared, as they are not preserved), objects deep-equal,
everything else structurally. -/
def valueEq : JSValue → JSValue → Bool
  | .undefined, .undefined => true
  | .null, .null => true
  | .bool a, .bool b => a == b
  | .num a, .num b => numEq a b
  | .str a, .str b => a == b
  | .date a, .date b => dateEq a b
  | .regexp a, .regexp b => a.src == b.src
  | .fn a, .fn b => a == b
  | .obj a, .obj b => jsonEq a b
  | _, _ => false

/-- The truthy representatives of the supported kinds: non-zero numbers
(non-zero finite values and the two infinities), non-empty strings, `true`,
dates — either Invalid Date or a valid date restricted to whole seconds
(`toUTCString` discards milliseconds, so only whole-second instants survive
the round trip as the same instant) — regexes with a valid non-empty
source (every real regex value has one), and composites. -/
def SupportedTruthy : JSValue → Prop
  | .num (.fin m _) => m ≠ 0
  | .num .inf => True
  | .num .neginf => True
  | .str s => s ≠ ""
  | .bool b => b = true
  | .date (.valid f) => fieldsOk f = true ∧ f.ms = 0
  | .date .invalid => True
  | .regexp r => patternOk r.src = true ∧ r.src ≠ ""
  | .obj (.arr _) => True
  | .obj (.obj _) => True
  | _ => False

/-- C2 (amended): the round trip holds for every supported kind and truthy
representative — non-zero numbers including the infinities, non-empty
strings, `true`, dates including Invalid Date, regexes, composites — with
the sole weakening that the date kind preserves the instant only up to
discarding milliseconds (encoding goes through `toUTCString`, which has
seconds precision, so a date with non-zero milliseconds comes back
truncated — see the counterexample): after `set(key, v)`, `get(key, D)`
returns a value that is value-equal to `v` under that kind's equality. -/
theorem C2_amended (v : JSValue) (hv : SupportedTruthy v) :
    ∀ (st : Store) (k : String) (D : JSValue),
      ∃ v', Storage.get (Storage.set st k v) k D = .ok v'
        ∧ valueEq v' v = true := by
  intro st k D
  cases v with
  | undefined => exact hv.elim
  | null => exact hv.elim
  | fn src => exact hv.elim
  | bool b =>
    have hb : b = true := hv
    subst hb
    have h1 : getItem (Storage.set st k (.bool true)) k
        = .str ("__bool__|" ++ "1") := getItem_setItem st k _
    have h2 : decode (getItem (Storage.set st k (.bool true)) k)
        = .ok (some (.bool (("1" : String) == "1"))) := by
      rw [h1]
      exact decode_boolTag "1" (by decide)
    have hbeq : (("1" : String) == "1") = true := rfl
    rw [get_of_decode_some h2, hbeq,
      if_pos (show jsTruthy (.bool true) = true from rfl)]
    exact ⟨_, rfl, rfl⟩
  | num n =>
    cases n with
    | nan => exact hv.elim
    | inf =>
      have h1 : getItem (Storage.set st k (.num .inf)) k
          = .str ("__numb__|" ++ "Infinity") := getItem_setItem st k _
      have h2 : decode (getItem (Storage.set st k (.num .inf)) k)
          = .ok (some (.num (numParse "Infinity"))) := by
        rw [h1]
        exact decode_numb "Infinity" (by decide)
      have h3 : numParse "Infinity" = .inf := rfl
      rw [get_of_decode_some h2, h3,
        if_pos (show jsTruthy (.num .inf) = true from rfl)]
      exact ⟨_, rfl, rfl⟩
    | neginf =>
      have h1 : getItem (Storage.set st k (.num .neginf)) k
          = .str ("__numb__|" ++ "-Infinity") := getItem_setItem st k _
      have h2 : decode (getItem (Storage.set st k (.num .neginf)) k)
          = .ok (some (.num (numParse "-Infinity"))) := by
        rw [h1]
        exact decode_numb "-Infinity" (by decide)
      have h3 : numParse "-Infinity" = .neginf := rfl
      rw [get_of_decode_some h2, h3,
        if_pos (show jsTruthy (.num .neginf) = true from rfl)]
      exact ⟨_, rfl, rfl⟩
    | fin m e =>
      have hm : m ≠ 0 := hv
      obtain ⟨m', e', hparse, hval⟩ := numParse_toString_fin m e
      have hm' : m' ≠ 0 := by
        intro h0
        rw [h0] at hval
        have h00 : finVal 0 e' = 0 := by simp [finVal]
        rw [h00] at hval
        exact hm (finVal_eq_zero_iff.mp hval.symm)
      obtain ⟨c, t, hct, _⟩ := toString_fin_shape m e
      have h1 : getItem (Storage.set st k (.num (.fin m e))) k
          = .str ("__numb__|" ++ (JSNum.fin m e).toString) := getItem_setItem st k _
      have h2 : decode (getItem (Storage.set st k (.num (.fin m e))) k)
          = .ok (some (.num (numParse (JSNum.fin m e).toString))) := by
        rw [h1]
        exact decode_numb _ (by rw [hct]; simp)
      rw [get_of_decode_some h2, hparse,
        if_pos (show jsTruthy (.num (.fin m' e')) = true by
          simp [jsTruthy, hm'])]
      exact ⟨_, rfl, by simp [valueEq, numEq, hval]⟩
  | str s =>
    have hs : s ≠ "" := hv
    have h1 : getItem (Storage.set st k (.str s)) k
        = .str ("__strn__|" ++ s) := getItem_setItem st k _
    have h2 : decode (getItem (Storage.set st k (.str s)) k)
        = .ok (some (.str s)) := by
      rw [h1]
      exact decode_strn s (data_ne_nil_of_ne_empty hs)
    rw [get_of_decode_some h2,
      if_pos (show jsTruthy (.str s) = true by simp [jsTruthy, hs])]
    exact ⟨_, rfl, by simp [valueEq]⟩
  | date d =>
    cases d with
    | invalid =>
      have h1 : getItem (Storage.set st k (.date .invalid)) k
          = .str ("__date__|" ++ "Invalid Date") := getItem_setItem st k _
      have h2 : decode (getItem (Storage.set st k (.date .invalid)) k)
          = .ok (some (.date (dateParse "Invalid Date"))) := by
        rw [h1]
        exact decode_date "Invalid Date" (by decide)
      have h3 : dateParse "Invalid Date" = .invalid := rfl
      rw [get_of_decode_some h2, h3, if_pos (jsTruthy_date _)]
      exact ⟨_, rfl, rfl⟩
    | valid f =>
      obtain ⟨y, mo, dd, hh, mi, ss, ms⟩ := f
      obtain ⟨hok, hms⟩ := hv
      have hms' : ms = 0 := hms
      subst hms'
      have hne : (JSDate.toUTCString (.valid ⟨y, mo, dd, hh, mi, ss, 0⟩)).data
          ≠ [] := by
        show DateFields.utcChars ⟨y, mo, dd, hh, mi, ss, 0⟩ ≠ []
        rw [DateFields.utcChars]
        intro hc
        exact absurd (List.append_eq_nil.mp hc).2 (by simp)
      have h1 : getItem (Storage.set st k (.date (.valid ⟨y, mo, dd, hh, mi, ss, 0⟩))) k
          = .str ("__date__|" ++ JSDate.toUTCString (.valid ⟨y, mo, dd, hh, mi, ss, 0⟩)) :=
        getItem_setItem st k _
      have h2 : decode (getItem (Storage.set st k
            (.date (.valid ⟨y, mo, dd, hh, mi, ss, 0⟩))) k)
          = .ok (some (.date (dateParse
              (JSDate.toUTCString (.valid ⟨y, mo, dd, hh, mi, ss, 0⟩))))) := by
        rw [h1]
        exact decode_date _ hne
      rw [get_of_decode_some h2, dateParse_utc_valid ⟨y, mo, dd, hh, mi, ss, 0⟩ hok,
        if_pos (jsTruthy_date _)]
      exact ⟨_, rfl, by simp [valueEq, dateEq]⟩
  | regexp r =>
    obtain ⟨hok, hne⟩ := hv
    have h1 : getItem (Storage.set st k (.regexp r)) k
        = .str ("__expr__|" ++ r.src) := getItem_setItem st k _
    have hc : compileRegExp r.src = some ⟨r.src, ""⟩ := by
      rw [compileRegExp, if_pos hok, if_neg hne]
    have h2 : decode (getItem (Storage.set st k (.regexp r)) k)
        = .ok (some (.regexp ⟨r.src, ""⟩)) := by
      rw [h1, decode_expr r.src (data_ne_nil_of_ne_empty hne), hc]
    rw [get_of_decode_some h2, if_pos (jsTruthy_regexp _)]
    exact ⟨_, rfl, by simp [valueEq]⟩
  | obj j =>
    cases j with
    | null => exact hv.elim
    | bool _ => exact hv.elim
    | num _ _ => exact hv.elim
    | str _ => exact hv.elim
    | arr xs =>
      obtain ⟨j', hparse, heq⟩ := jsonParse_stringify (.arr xs)
      have hne : (jsonStringify (JSON.arr xs)).data ≠ [] := by
        obtain ⟨c, t, hct, _⟩ := jsonStr_shape (.arr xs)
        show jsonStr (JSON.arr xs) ≠ []
        rw [hct]
        simp
      have h1 : getItem (Storage.set st k (.obj (.arr xs))) k
          = .str ("__objt__|" ++ jsonStringify (.arr xs)) := getItem_setItem st k _
      have h2 : decode (getItem (Storage.set st k (.obj (.arr xs))) k)
          = .ok (some (jsValOfJson j')) := by
        rw [h1, decode_objt _ hne, hparse]
      cases j' with
      | arr ys =>
        rw [get_of_decode_some h2,
          show jsValOfJson (JSON.arr ys) = .obj (.arr ys) from rfl,
          if_pos (jsTruthy_obj _)]
        refine ⟨_, rfl, ?_⟩
        simp only [valueEq]
        exact heq
      | null => simp [jsonEq] at heq
      | bool _ => simp [jsonEq] at heq
      | num _ _ => simp [jsonEq] at heq
      | str _ => simp [jsonEq] at heq
      | obj _ => simp [jsonEq] at heq
    | obj fs =>
      obtain ⟨j', hparse, heq⟩ := jsonParse_stringify (.obj fs)
      have hne : (jsonStringify (JSON.obj fs)).data ≠ [] := by
        obtain ⟨c, t, hct, _⟩ := jsonStr_shape (.obj fs)
        show jsonStr (JSON.obj fs) ≠ []
        rw [hct]
        simp
      have h1 : getItem (Storage.set st k (.obj (.obj fs))) k
          = .str ("__objt__|" ++ jsonStringify (.obj fs)) := getItem_setItem st k _
      have h2 : decode (getItem (Storage.set st k (.obj (.obj fs))) k)
          = .ok (some (jsValOfJson j')) := by
        rw [h1, decode_objt _ hne, hparse]
      cases j' with
      | obj gs =>
        rw [get_of_decode_some h2,
          show jsValOfJson (JSON.obj gs) = .obj (.obj gs) from rfl,
          if_pos (jsTruthy_obj _)]
        refine ⟨_, rfl, ?_⟩
        simp only [valueEq]
        exact heq
      | null => simp [jsonEq] at heq
      | bool _ => simp [jsonEq] at heq
      | num _ _ => simp [jsonEq] at heq
      | str _ => simp [jsonEq] at heq
      | arr _ => simp [jsonEq] at heq

theorem C2_amended_witness :
    SupportedTruthy (.bool true) ∧
      ∃ v', Storage.get (Storage.set emptyStore "k" (.bool true)) "k" .undefined
          = .ok v' ∧ valueEq v' (.bool true) = true :=
  ⟨rfl, C2_amended (.bool true) rfl emptyStore "k" .undefined⟩

/-- C2 (counterexample): a date with non-zero milliseconds does not come
back as the same instant: `toUTCString` has seconds precision, so
epoch+1ms is stored as `Thu, 01 Jan 1970 00:00:00 GMT` and read back as
the epoch itself — not value-equal to the stored date. -/
theorem C2_counterexample :
    Storage.get (Storage.set emptyStore "k"
        (.date (.valid ⟨1970, 1, 1, 0, 0, 0, 1⟩))) "k" .undefined
        = .ok (.date (.valid ⟨1970, 1, 1, 0, 0, 0, 0⟩)) ∧
      valueEq (.date (.valid ⟨1970, 1, 1, 0, 0, 0, 0⟩))
        (.date (.valid ⟨1970, 1, 1, 0, 0, 0, 1⟩)) = false := by
  constructor
  · have h1 : getItem (Storage.set emptyStore "k"
          (.date (.valid ⟨1970, 1, 1, 0, 0, 0, 1⟩))) "k"
        = .str ("__date__|" ++ JSDate.toUTCString (.valid ⟨1970, 1, 1, 0, 0, 0, 1⟩)) :=
      getItem_setItem emptyStore "k" _
    have h2 : decode (getItem (Storage.set emptyStore "k"
          (.date (.valid ⟨1970, 1, 1, 0, 0, 0, 1⟩))) "k")
        = .ok (some (.date (dateParse
            (JSDate.toUTCString (.valid ⟨1970, 1, 1, 0, 0, 0, 1⟩))))) := by
      rw [h1]
      exact decode_date _ (by decide)
    rw [get_of_decode_some h2,
      dateParse_utc_valid ⟨1970, 1, 1, 0, 0, 0, 1⟩ (by decide),
      if_pos (jsTruthy_date _)]
  · decide

end JsStorage
